import Mathlib

/-!
Verification of the agent-manager workflow execution engine.

Shallow embedding of the core of the `agent-manager` repository:

* the graph model and its validation (`agent_manager/models/workflow.py`),
* the job/run status machinery (`agent_manager/models/result.py`),
* the expression evaluator (`agent_manager/expressions/evaluator.py`),
* the output extractor (`agent_manager/expressions/extractor.py`),
* the job runner (`agent_manager/execution/job_runner.py`),
* the DAG scheduler (`agent_manager/execution/workflow_runner.py`).

Python dictionaries are modelled as association lists (preserving insertion
order where the code iterates over them) or as total functions with explicit
`Option` values; Python sets are modelled as `Finset`.
-/

namespace AgentManager

/-- Job execution status, from `JobStatus` in `models/result.py`. -/
inductive JobStatus where
  | pending
  | running
  | completed
  | failed
  | skipped
  | cancelled
deriving DecidableEq, Repr

/-- The `.value` string of a `JobStatus` (the Python `str` enum value). -/
def JobStatus.value : JobStatus → String
  | .pending => "pending"
  | .running => "running"
  | .completed => "completed"
  | .failed => "failed"
  | .skipped => "skipped"
  | .cancelled => "cancelled"

/-- A job definition, from `Job` in `models/workflow.py`.  Only the fields
the execution engine reads are modelled; pydantic metadata is dropped.
`context` is an insertion-ordered dict (name → shell command). -/
structure Job where
  goals : Option (List String) := none
  context : List (String × String) := []
  prompt : Option String := none
  agent : Option String := none
  needs : Option (List String) := none
  if_condition : Option String := none
  report : Option (List String) := none
  outputs : Option (List String) := none
deriving DecidableEq, Repr

/-- Embedding of `Job.has_goals` property: goals present and non-empty. -/
def Job.has_goals (j : Job) : Bool :=
  match j.goals with
  | some gs => !gs.isEmpty
  | none => false

/-- Embedding of `Job.all_outputs` property: `self.report or self.outputs or []`
(Python `or` treats `None` and the empty list as falsy). -/
def Job.all_outputs (j : Job) : List String :=
  match j.report with
  | some r => if r.isEmpty then (match j.outputs with
      | some o => if o.isEmpty then [] else o
      | none => []) else r
  | none => match j.outputs with
      | some o => if o.isEmpty then [] else o
      | none => []

/-- The job's dependency list: Python `job.needs` treating `None` as empty. -/
def Job.needsList (j : Job) : List String := j.needs.getD []

/-- A workflow, from `Workflow` in `models/workflow.py`.  `jobs` is the
insertion-ordered job dict, keys assumed unique (dict semantics). -/
structure Workflow where
  name : String
  jobs : List (String × Job)
deriving Repr

/-- Embedding of `self.jobs.get(name)` on the job dict. -/
def Workflow.findJob (wf : Workflow) (name : String) : Option Job :=
  (wf.jobs.find? (fun p => p.1 = name)).map Prod.snd

/-- Embedding of `Workflow.dependents`: names of jobs whose `needs` directly contains
`job_name`, sorted lexicographically (Python `sorted`). -/
def Workflow.dependents (wf : Workflow) (job_name : String) : List String :=
  ((wf.jobs.filter (fun p => job_name ∈ p.2.needsList)).map Prod.fst).mergeSort
    (fun a b => a ≤ b)

/-- Membership in `dependents` is exactly "directly needs the given job". -/
theorem mem_dependents {wf : Workflow} {x j : String} :
    x ∈ wf.dependents j ↔ ∃ jb : Job, (x, jb) ∈ wf.jobs ∧ j ∈ jb.needsList := by
  unfold Workflow.dependents
  rw [List.mem_mergeSort, List.mem_map]
  constructor
  · rintro ⟨⟨n, jb⟩, hmem, rfl⟩
    rw [List.mem_filter] at hmem
    exact ⟨jb, hmem.1, by simpa using hmem.2⟩
  · rintro ⟨jb, hmem, hneed⟩
    exact ⟨(x, jb), List.mem_filter.mpr ⟨hmem, by simpa using hneed⟩, rfl⟩

/-- The slice of a `JobResult` (`models/result.py`) that the scheduler
reads: status, outputs, and the error/skip message. -/
structure JobResultM where
  status : JobStatus := .pending
  outputs : List (String × String) := []
  error_message : Option String := none
  claude_output : Option String := none
deriving DecidableEq, Repr

/-- Embedding of `WorkflowRunner._job_is_ready` from `execution/workflow_runner.py`:
a job is ready when it exists and every `needs` entry has a result whose
status is COMPLETED or SKIPPED.  `results` models `run.job_results.get`. -/
def jobIsReady (wf : Workflow) (results : String → Option JobResultM)
    (job_name : String) : Bool :=
  match wf.findJob job_name with
  | none => false
  | some job =>
    if job.needsList.isEmpty then true
    else job.needsList.all (fun dep =>
      match results dep with
      | none => false
      | some r => r.status = .completed || r.status = .skipped)

/-- C1: a pending job is computed ready iff every entry in its `needs`
list has a JobResult whose status is COMPLETED or SKIPPED; an empty
`needs` list means always ready, and a missing result or any other
status makes the job not ready. -/
theorem jobIsReady_iff (wf : Workflow) (results : String → Option JobResultM)
    (name : String) (job : Job) (hfind : wf.findJob name = some job) :
    jobIsReady wf results name = true ↔
      ∀ dep ∈ job.needsList, ∃ r, results dep = some r ∧
        (r.status = .completed ∨ r.status = .skipped) := by
  unfold jobIsReady
  rw [hfind]
  by_cases hempty : job.needsList.isEmpty
  · simp only [hempty, if_pos]
    rw [List.isEmpty_iff] at hempty
    simp [hempty]
  · rw [Bool.not_eq_true] at hempty
    simp only [hempty, Bool.false_eq_true, if_false, List.all_eq_true]
    constructor
    · intro h dep hdep
      have := h dep hdep
      cases hres : results dep with
      | none => rw [hres] at this; simp at this
      | some r =>
        rw [hres] at this
        simp only [Bool.or_eq_true, decide_eq_true_eq] at this
        exact ⟨r, rfl, this⟩
    · intro h dep hdep
      obtain ⟨r, hres, hst⟩ := h dep hdep
      rw [hres]
      simp only [Bool.or_eq_true, decide_eq_true_eq]
      exact hst

/-- Concrete instantiation of `jobIsReady_iff`: job `b` needs `a`,
which has completed. -/
theorem jobIsReady_iff_witness :
    let wf : Workflow := ⟨"w", [("a", {}), ("b", { needs := some ["a"] })]⟩
    let results : String → Option JobResultM := fun n =>
      if n = "a" then some { status := .completed } else none
    jobIsReady wf results "b" = true ↔
      ∀ dep ∈ (Job.needsList { needs := some ["a"] }), ∃ r, results dep = some r ∧
        (r.status = .completed ∨ r.status = .skipped) :=
  jobIsReady_iff _ _ "b" _ (by decide)

/-! ## Expression evaluator (`expressions/evaluator.py`)

The evaluator is embedded over `List Char` with explicit fuel so that every
function is structurally recursive and kernel-computable.  The fuel given by
the top-level entry points strictly dominates the recursion depth of the
Python original (which always terminates on the same inputs), so the
fuel-exhaustion branches are unreachable from those entry points. -/

/-- The single-quote character (`'`). -/
def squote : Char := Char.ofNat 39

/-- The double-quote character (`"`). -/
def dquote : Char := Char.ofNat 34

/-- Python `str.strip()` on a character list (ASCII whitespace). -/
def trimChars (cs : List Char) : List Char :=
  ((cs.dropWhile Char.isWhitespace).reverse.dropWhile Char.isWhitespace).reverse

theorem trimChars_length_le (cs : List Char) : (trimChars cs).length ≤ cs.length := by
  unfold trimChars
  calc ((cs.dropWhile Char.isWhitespace).reverse.dropWhile Char.isWhitespace).reverse.length
      = ((cs.dropWhile Char.isWhitespace).reverse.dropWhile Char.isWhitespace).length := by
        rw [List.length_reverse]
    _ ≤ (cs.dropWhile Char.isWhitespace).reverse.length :=
        (List.dropWhile_sublist _).length_le
    _ = (cs.dropWhile Char.isWhitespace).length := by rw [List.length_reverse]
    _ ≤ cs.length := (List.dropWhile_sublist _).length_le

/-- Runtime context for expressions, from `ExpressionContext` in
`expressions/evaluator.py`.  Dicts are association lists (keys unique);
the Python field `variables` is called `vars` here because `variables`
is a reserved word in Lean. -/
structure ExpressionContext where
  job_outputs : List (String × List (String × String)) := []
  job_statuses : List (String × String) := []
  step_outputs : List (String × List (String × String)) := []
  step_statuses : List (String × String) := []
  vars : List (String × String) := []
  current_job : List (String × String) := []
deriving Repr

/-- Python `dict.get` on an association list. -/
def dictGet {α : Type} (l : List (String × α)) (k : String) : Option α :=
  (l.find? (fun p => p.1 = k)).map Prod.snd

/-- Python `str.split(sep)` for a single-character separator: splits at
every occurrence, keeping empty segments; the empty string yields one
empty segment. -/
def splitOnChar (sep : Char) : List Char → List (List Char)
  | [] => [[]]
  | c :: rest =>
      let r := splitOnChar sep rest
      if c = sep then [] :: r
      else match r with
        | s :: ss => (c :: s) :: ss
        | [] => [[c]]

/-- Embedding of `ExpressionContext.resolve`: resolve a dotted variable path. -/
def ExpressionContext.resolve (ctx : ExpressionContext) (path : String) :
    Option String :=
  match (splitOnChar '.' path.toList).map (fun cs => String.mk cs) with
  | ["job", key] => dictGet ctx.current_job key
  | ["jobs", jobName, "outputs", outputName] =>
      (dictGet ctx.job_outputs jobName).bind (fun m => dictGet m outputName)
  | ["jobs", jobName, "status"] => dictGet ctx.job_statuses jobName
  | ["steps", stepName, "outputs", outputName] =>
      (dictGet ctx.step_outputs stepName).bind (fun m => dictGet m outputName)
  | ["steps", stepName, "status"] => dictGet ctx.step_statuses stepName
  | _ => dictGet ctx.vars path

/-- Embedding of `ExpressionEvaluator._split_by_operator`: split on an operator, scanning
with single/double-quote state; an operator occurrence counts as a delimiter
only outside quotes.  Structured with fuel; each step consumes at least one
input character, so `fuel = cs.length` (as supplied by `splitByOperator`)
makes the fuel-exhaustion arm unreachable. -/
def splitAux (op : List Char) : Nat → List Char → Option Char → List Char →
    List (List Char) → List (List Char)
  | _, [], _, current, parts =>
      if current.isEmpty then parts else parts ++ [current]
  | 0, _ :: _, _, current, parts =>
      if current.isEmpty then parts else parts ++ [current]
  | fuel + 1, c :: rest, inQuote, current, parts =>
      if c = squote ∨ c = dquote then
        let inQuote' := if inQuote = some c then none
          else if inQuote = none then some c else inQuote
        splitAux op fuel rest inQuote' (current ++ [c]) parts
      else if inQuote = none ∧ op.isPrefixOf (c :: rest) then
        splitAux op fuel (rest.drop (op.length - 1)) none [] (parts ++ [current])
      else
        splitAux op fuel rest inQuote (current ++ [c]) parts

/-- Embedding of `_split_by_operator` entry point. -/
def splitByOperator (cs op : List Char) : List (List Char) :=
  splitAux op cs.length cs none [] []

/-- Every part produced by the quote-aware scan either was already in the
accumulator or fits in the remaining input. -/
theorem splitAux_mem_length {op : List Char} :
    ∀ {fuel : Nat} {cs : List Char} {q : Option Char} {cur : List Char}
      {parts : List (List Char)} {p : List Char},
      p ∈ splitAux op fuel cs q cur parts →
      p ∈ parts ∨ p.length ≤ cur.length + cs.length := by
  intro fuel
  induction fuel with
  | zero =>
    intro cs q cur parts p hp
    cases cs with
    | nil =>
      unfold splitAux at hp
      split at hp
      · exact Or.inl hp
      · rcases List.mem_append.mp hp with h | h
        · exact Or.inl h
        · right; simp only [List.mem_singleton] at h; subst h; simp
    | cons c rest =>
      unfold splitAux at hp
      split at hp
      · exact Or.inl hp
      · rcases List.mem_append.mp hp with h | h
        · exact Or.inl h
        · right; simp only [List.mem_singleton] at h; subst h; omega
  | succ fuel ih =>
    intro cs q cur parts p hp
    cases cs with
    | nil =>
      unfold splitAux at hp
      split at hp
      · exact Or.inl hp
      · rcases List.mem_append.mp hp with h | h
        · exact Or.inl h
        · right; simp only [List.mem_singleton] at h; subst h; simp
    | cons c rest =>
      rw [splitAux] at hp
      by_cases hq : c = squote ∨ c = dquote
      · rw [if_pos hq] at hp
        rcases ih hp with h | h
        · exact Or.inl h
        · right; simp only [List.length_append, List.length_singleton, List.length_nil,
            List.length_cons] at h ⊢; omega
      · rw [if_neg hq] at hp
        by_cases hop : q = none ∧ op.isPrefixOf (c :: rest)
        · rw [if_pos hop] at hp
          rcases ih hp with h | h
          · rcases List.mem_append.mp h with h' | h'
            · exact Or.inl h'
            · right; simp only [List.mem_singleton] at h'; subst h'; omega
          · right
            have hd : (rest.drop (op.length - 1)).length =
                rest.length - (op.length - 1) := List.length_drop _ _
            rw [List.length_nil, hd] at h
            simp only [List.length_cons]; omega
        · rw [if_neg hop] at hp
          rcases ih hp with h | h
          · exact Or.inl h
          · right; simp only [List.length_append, List.length_singleton, List.length_nil,
              List.length_cons] at h ⊢; omega

/-- When the scan produced at least two parts (so at least one operator
occurrence was consumed), every new part is shorter than the input by at
least the operator's length. -/
theorem splitAux_len_bound {op : List Char} :
    ∀ {fuel : Nat} {cs : List Char} {q : Option Char} {cur : List Char}
      {parts : List (List Char)} {p : List Char},
      (splitAux op fuel cs q cur parts).length > parts.length + 1 →
      p ∈ splitAux op fuel cs q cur parts →
      p ∈ parts ∨ p.length + op.length ≤ cur.length + cs.length := by
  intro fuel
  induction fuel with
  | zero =>
    intro cs q cur parts p hlen _hp
    cases cs with
    | nil =>
      unfold splitAux at hlen
      split at hlen
      · omega
      · rw [List.length_append, List.length_singleton] at hlen; omega
    | cons c rest =>
      unfold splitAux at hlen
      split at hlen
      · omega
      · rw [List.length_append, List.length_singleton] at hlen; omega
  | succ fuel ih =>
    intro cs q cur parts p hlen hp
    cases cs with
    | nil =>
      unfold splitAux at hlen
      split at hlen
      · omega
      · rw [List.length_append, List.length_singleton] at hlen; omega
    | cons c rest =>
      rw [splitAux] at hp hlen
      by_cases hq : c = squote ∨ c = dquote
      · rw [if_pos hq] at hp hlen
        rcases ih hlen hp with h | h
        · exact Or.inl h
        · right; simp only [List.length_append, List.length_singleton, List.length_nil,
            List.length_cons] at h ⊢; omega
      · rw [if_neg hq] at hp hlen
        by_cases hop : q = none ∧ op.isPrefixOf (c :: rest)
        · rw [if_pos hop] at hp
          -- an operator occurrence was consumed here: use the weaker bound
          -- on the recursive call plus the prefix-length inequality
          have hoplen : op.length ≤ rest.length + 1 := by
            have hpre : op <+: (c :: rest) :=
              List.isPrefixOf_iff_prefix.mp hop.2
            simpa using hpre.length_le
          rcases splitAux_mem_length hp with h | h
          · rcases List.mem_append.mp h with h' | h'
            · exact Or.inl h'
            · right; simp only [List.mem_singleton] at h'; subst h'
              simp only [List.length_cons]; omega
          · right
            have hd : (rest.drop (op.length - 1)).length =
                rest.length - (op.length - 1) := List.length_drop _ _
            rw [List.length_nil, hd] at h
            simp only [List.length_cons]; omega
        · rw [if_neg hop] at hp hlen
          rcases ih hlen hp with h | h
          · exact Or.inl h
          · right; simp only [List.length_append, List.length_singleton, List.length_nil,
              List.length_cons] at h ⊢; omega

/-- If `splitByOperator` split the expression (more than one part), each
part is strictly shorter than the input (the operator is non-empty). -/
theorem splitByOperator_part_lt {cs op p : List Char} (hop : 1 ≤ op.length)
    (hlen : (splitByOperator cs op).length > 1) (hp : p ∈ splitByOperator cs op) :
    p.length < cs.length := by
  unfold splitByOperator at hlen hp
  rcases splitAux_len_bound (by simpa using hlen) hp with h | h
  · simp at h
  · simp at h; omega

/-- First index of `pat` as a substring (Python `str.find`); `none` when
absent (the code only calls `find` after an `in` check). -/
def findSub (pat : List Char) : List Char → Option Nat
  | [] => if pat.isEmpty then some 0 else none
  | c :: rest =>
      if pat.isPrefixOf (c :: rest) then some 0
      else (findSub pat rest).map (· + 1)

/-- The comparison operators, in the order `_evaluate_comparison` tries
them: `==`, `!=`, `<=`, `>=`, `<`, `>`. -/
def comparisonOperators : List (List Char) :=
  [['=', '='], ['!', '='], ['<', '='], ['>', '='], ['<'], ['>']]

/-- The first operator of the list that occurs anywhere in `cs`, with the
index of its first occurrence (the `for op in operators` loop). -/
def findFirstOp : List (List Char) → List Char → Option (List Char × Nat)
  | [], _ => none
  | op :: more, cs =>
      match findSub op cs with
      | some i => some (op, i)
      | none => findFirstOp more cs

/-- Decimal digits to a natural number. -/
def digitsToNat (ds : List Char) : Nat :=
  ds.foldl (fun acc c => acc * 10 + (c.toNat - 48)) 0

/-- Model of Python `float(...)` restricted to optionally-signed finite
decimal literals (`"12"`, `"-3.5"`, `"+.25"`, `"2."`).  The value is the
exact rational `num / 10 ^ scale`.  Python additionally accepts
exponents, `inf`/`nan` and underscore separators; those shapes never
arise in the claims checked here, and a failed parse falls back to
string comparison either way. -/
def parseDecimal (s : String) : Option (Int × Nat) :=
  let cs := trimChars s.toList
  let sign : Int := match cs.head? with
    | some c => if c = '-' then -1 else 1
    | none => 1
  let cs := match cs.head? with
    | some c => if c = '-' ∨ c = '+' then cs.drop 1 else cs
    | none => cs
  let intPart := cs.takeWhile Char.isDigit
  let rest := cs.dropWhile Char.isDigit
  match rest with
  | [] =>
      if intPart.isEmpty then none
      else some (sign * (digitsToNat intPart : Int), 0)
  | dot :: frac =>
      if dot = '.' ∧ frac.all Char.isDigit ∧ ¬(intPart.isEmpty ∧ frac.isEmpty) then
        some (sign * ((digitsToNat intPart * 10 ^ frac.length + digitsToNat frac) : Int),
          frac.length)
      else none

/-- Strict less-than on the exact decimals `a.1 / 10 ^ a.2` by
cross-multiplication (denominators are positive powers of ten). -/
def decimalLt (a b : Int × Nat) : Bool :=
  a.1 * 10 ^ b.2 < b.1 * 10 ^ a.2

/-- Equality of the exact decimals by cross-multiplication. -/
def decimalEq (a b : Int × Nat) : Bool :=
  a.1 * 10 ^ b.2 = b.1 * 10 ^ a.2

/-- Python string `<`: lexicographic comparison of code points, a proper
prefix is smaller. -/
def strLtChars : List Char → List Char → Bool
  | [], [] => false
  | [], _ :: _ => true
  | _ :: _, [] => false
  | a :: as, b :: bs =>
      if a.toNat < b.toNat then true
      else if b.toNat < a.toNat then false
      else strLtChars as bs

/-- Embedding of `ExpressionEvaluator._compare`: `==`/`!=` are string equality; the
ordering operators try a numeric parse of both operands first, falling
back to lexicographic string comparison when either side fails to parse. -/
def pyCompare (left : String) (op : String) (right : String) : Bool :=
  if op = "==" then left = right
  else if op = "!=" then left ≠ right
  else
    match parseDecimal left, parseDecimal right with
    | some l, some r =>
        if op = "<" then decimalLt l r
        else if op = ">" then decimalLt r l
        else if op = "<=" then decimalLt l r || decimalEq l r
        else if op = ">=" then decimalLt r l || decimalEq l r
        else false
    | _, _ =>
        if op = "<" then strLtChars left.toList right.toList
        else if op = ">" then strLtChars right.toList left.toList
        else if op = "<=" then !(strLtChars right.toList left.toList)
        else if op = ">=" then !(strLtChars left.toList right.toList)
        else false

/-- Embedding of `ExpressionEvaluator._is_truthy`: everything is truthy except
(case-insensitively) `"false"`, `"0"`, the empty string, `"null"`, `"none"`. -/
def isTruthy (value : String) : Bool :=
  let lower := String.mk (value.toList.map Char.toLower)
  !(lower = "false" || lower = "0" || lower = "" || lower = "null" || lower = "none")

/-- Embedding of `ExpressionEvaluator._resolve_value`: strip, unwrap a quoted literal,
else resolve as a variable path, else return the text itself as a literal. -/
def resolveValue (value : List Char) (ctx : ExpressionContext) : String :=
  let v := trimChars value
  if (v.head? = some squote ∧ v.getLast? = some squote) ∨
     (v.head? = some dquote ∧ v.getLast? = some dquote) then
    String.mk (v.drop 1).dropLast
  else
    match ctx.resolve (String.mk v) with
    | some resolved => resolved
    | none => String.mk v

mutual

/-- Embedding of `_evaluate_logical_or`: quote-aware split on `||`, any part true. -/
def evaluateLogicalOr : Nat → List Char → ExpressionContext → Bool
  | 0, _, _ => false
  | fuel + 1, cs, ctx =>
      let parts := splitByOperator cs ['|', '|']
      if parts.length > 1 then
        parts.any (fun p => evaluateLogicalAnd fuel (trimChars p) ctx)
      else evaluateLogicalAnd fuel cs ctx

/-- Embedding of `_evaluate_logical_and`: quote-aware split on `&&`, all parts true. -/
def evaluateLogicalAnd : Nat → List Char → ExpressionContext → Bool
  | 0, _, _ => false
  | fuel + 1, cs, ctx =>
      let parts := splitByOperator cs ['&', '&']
      if parts.length > 1 then
        parts.all (fun p => evaluateComparison fuel (trimChars p) ctx)
      else evaluateComparison fuel cs ctx

/-- Embedding of `_evaluate_comparison`: locate the first comparison operator by plain
substring search (NOT quote-aware — `op in expression` / `expression.find`),
split there, resolve both sides and compare; otherwise handle `!` negation
and fall through to primary evaluation. -/
def evaluateComparison : Nat → List Char → ExpressionContext → Bool
  | 0, _, _ => false
  | fuel + 1, cs, ctx =>
      match findFirstOp comparisonOperators cs with
      | some (op, idx) =>
          let left := trimChars (cs.take idx)
          let right := trimChars (cs.drop (idx + op.length))
          pyCompare (resolveValue left ctx) (String.mk op) (resolveValue right ctx)
      | none =>
          if cs.head? = some '!' then
            !(evaluatePrimary fuel (trimChars (cs.drop 1)) ctx)
          else evaluatePrimary fuel cs ctx

/-- Embedding of `_evaluate_primary`: parenthesized group (only when the whole stripped
operand is parenthesized), boolean literals, the four builtin predicates,
then a truthy variable lookup; unknown expressions default to false. -/
def evaluatePrimary : Nat → List Char → ExpressionContext → Bool
  | 0, _, _ => false
  | fuel + 1, cs, ctx =>
      let e := trimChars cs
      if e.head? = some '(' ∧ e.getLast? = some ')' then
        evaluateLogicalOr fuel ((e.drop 1).dropLast) ctx
      else if String.mk (e.map Char.toLower) = "true" then true
      else if String.mk (e.map Char.toLower) = "false" then false
      else if String.mk e = "success()" then
        ctx.job_statuses.all (fun p => p.2 = "completed" || p.2 = "skipped")
      else if String.mk e = "failure()" then
        ctx.job_statuses.any (fun p => p.2 = "failed")
      else if String.mk e = "always()" then true
      else if String.mk e = "cancelled()" then
        ctx.job_statuses.any (fun p => p.2 = "cancelled")
      else
        match ctx.resolve (String.mk e) with
        | some v => isTruthy v
        | none => false

end

/-- The opening-brace character. -/
def lbrace : Char := Char.ofNat 123

/-- The closing-brace character. -/
def rbrace : Char := Char.ofNat 125

/-- Embedding of `_extract_expression`: strip, remove a surrounding interpolation
wrapper (dollar + two opening braces … two closing braces, Python
`expr[3:-2]`), strip again. -/
def extractExpression (expression : String) : String :=
  let e := trimChars expression.toList
  if ['$', lbrace, lbrace].isPrefixOf e ∧ [rbrace, rbrace].isSuffixOf e then
    String.mk (trimChars ((e.drop 3).dropLast.dropLast))
  else String.mk e

/-- Fuel that strictly dominates the evaluator's recursion depth: each
nesting level costs at most four calls and strictly shrinks the
expression before recursing into a parenthesized group. -/
def evalFuel (expr : String) : Nat := 4 * expr.length + 8

/-- Embedding of `ExpressionEvaluator.evaluate`: empty expressions default to true. -/
def evaluate (expression : String) (ctx : ExpressionContext) : Bool :=
  let expr := extractExpression expression
  if expr.isEmpty then true
  else evaluateLogicalOr (evalFuel expr) expr.toList ctx

/-- Embedding of `evaluate_to_string`: a bare resolvable variable path yields its raw
value, otherwise boolean evaluation rendered as `"true"`/`"false"`. -/
def evaluateToString (expression : String) (ctx : ExpressionContext) : String :=
  let expr := extractExpression expression
  if expr.isEmpty then ""
  else match ctx.resolve expr with
    | some value => value
    | none =>
        if evaluateLogicalOr (evalFuel expr) expr.toList ctx then "true" else "false"

/-- Scanner for `interpolate`'s regex (dollar, two opening braces,
optional space, at least one non-closing-brace character, optional
space, two closing braces): at a given position the pattern matches iff
the text starts with the three-character opener, at least one
non-closing-brace character follows, and the first closing brace after
them starts a double closing brace; the capture (stripped) is evaluated
and substituted, scanning resumes after the match.  Fuel is the input
length; every step consumes at least one character. -/
def interpolateAux (ctx : ExpressionContext) : Nat → List Char → List Char
  | 0, cs => cs
  | _fuel + 1, [] => []
  | fuel + 1, c :: rest =>
      if ['$', lbrace, lbrace].isPrefixOf (c :: rest) then
        let after := rest.drop 2
        let inner := after.takeWhile (fun ch => ch ≠ rbrace)
        let tl := after.dropWhile (fun ch => ch ≠ rbrace)
        if !inner.isEmpty ∧ [rbrace, rbrace].isPrefixOf tl then
          (evaluateToString (String.mk (trimChars inner)) ctx).toList ++
            interpolateAux ctx fuel (tl.drop 2)
        else c :: interpolateAux ctx fuel rest
      else c :: interpolateAux ctx fuel rest

/-- Embedding of `ExpressionEvaluator.interpolate`. -/
def interpolate (text : String) (ctx : ExpressionContext) : String :=
  String.mk (interpolateAux ctx text.toList.length text.toList)

/-- Inside a single-quoted span the scan of `_split_by_operator` only
accumulates characters: scanning `body ++ [']` from quote state consumes
everything into the current part and emits no delimiter. -/
theorem splitAux_in_quote {op : List Char} :
    ∀ (body : List Char) (fuel : Nat) (cur : List Char)
      (parts : List (List Char)), squote ∉ body → body.length + 1 ≤ fuel →
      splitAux op fuel (body ++ [squote]) (some squote) cur parts =
        parts ++ [cur ++ body ++ [squote]] := by
  intro body
  induction body with
  | nil =>
    intro fuel cur parts _ hfuel
    match fuel, hfuel with
    | f + 1, _ =>
      rw [List.nil_append, splitAux]
      rw [if_pos (Or.inl rfl)]
      simp only [reduceIte]
      rw [splitAux]
      rw [if_neg (by simp)]
      simp
  | cons c body ih =>
    intro fuel cur parts hnq hfuel
    have hc : c ≠ squote := fun h => hnq (h ▸ List.mem_cons_self c body)
    have hnq' : squote ∉ body := fun h => hnq (List.mem_cons_of_mem c h)
    match fuel, hfuel with
    | f + 1, hfuel =>
      have hf : body.length + 1 ≤ f := by
        simp only [List.length_cons] at hfuel; omega
      rw [List.cons_append, splitAux]
      by_cases hq : c = squote ∨ c = dquote
      · rw [if_pos hq]
        have : (if (some squote : Option Char) = some c then none
            else if (some squote : Option Char) = none then some c
            else some squote) = some squote := by
          rcases hq with h | h
          · exact absurd h hc
          · subst h
            rw [if_neg (by simp [squote, dquote]), if_neg (by simp)]
        rw [this, ih f (cur ++ [c]) parts hnq' hf]
        simp
      · rw [if_neg hq, if_neg (by simp), ih f (cur ++ [c]) parts hnq' hf]
        simp

/-- Splitting a single-quoted literal on any operator never splits it:
the quoted span comes back as the single part. -/
theorem splitByOperator_quoted (body op : List Char) (hnq : squote ∉ body) :
    splitByOperator (squote :: (body ++ [squote])) op =
      [squote :: (body ++ [squote])] := by
  unfold splitByOperator
  rw [List.length_cons, splitAux]
  rw [if_pos (Or.inl rfl)]
  have h1 : (if (none : Option Char) = some squote then none
      else if (none : Option Char) = none then some squote else none) =
      some squote := by simp
  rw [h1]
  show splitAux op (body ++ [squote]).length (body ++ [squote]) (some squote)
      ([] ++ [squote]) [] = _
  rw [List.nil_append, splitAux_in_quote body _ [squote] [] hnq (by simp)]
  simp

/-- C3 counterexample: the claim requires that a `==` occurring inside a
quoted literal never split the expression, so `'x==y' == 'x==y'` —
string equality of two identical quoted literals — would have to
evaluate to true (second conjunct: comparing the literal `x==y` with
itself under `==` is true).  The code locates comparison operators with
a plain first-occurrence search that ignores quotes, splits inside the
first literal, and yields false. -/
theorem evaluateComparison_quote_counterexample :
    evaluate "'x==y' == 'x==y'" {} = false ∧
      pyCompare "x==y" "==" "x==y" = true := by
  constructor
  · decide
  · decide

/-- C3 amended: splitting on `||` and `&&` (`_split_by_operator`) is
quote-aware — operator text inside a quoted literal never splits, stated
generally for any operator and any single-quoted literal — but the
comparison operators are located by a plain substring search that is NOT
quote-aware (`op in expression` / `expression.find(op)` in
`_evaluate_comparison`), so comparison-operator text inside a quoted
literal does split the expression. -/
theorem split_quote_awareness :
    (∀ (body op : List Char), squote ∉ body →
      splitByOperator (squote :: (body ++ [squote])) op =
        [squote :: (body ++ [squote])]) ∧
    evaluate "'a && b' == 'a && b'" {} = true ∧
    evaluate "'a || b' == 'a || b'" {} = true ∧
    evaluate "'x==y' == 'x==y'" {} = false := by
  refine ⟨fun body op hnq => splitByOperator_quoted body op hnq, ?_, ?_, ?_⟩
  · decide
  · decide
  · decide

/-- Concrete instantiation of the universally quantified conjunct of
`split_quote_awareness`: a quoted `&&` does not split on `&&`. -/
theorem split_quote_awareness_witness :
    splitByOperator (squote :: (['&', '&'] ++ [squote])) ['&', '&'] =
      [squote :: (['&', '&'] ++ [squote])] :=
  split_quote_awareness.1 ['&', '&'] ['&', '&'] (by decide)

/-- C4 counterexample: the claim requires `(true || false) && true` to
evaluate the parenthesized group as a unit — the group alone is true and
the other conjunct is true (second and third conjuncts) — so the whole
expression would have to be true; the code splits on `&&`/`||` without
tracking parentheses and yields false. -/
theorem paren_precedence_counterexample :
    evaluate "(true || false) && true" {} = false ∧
      evaluate "true || false" {} = true ∧
      evaluate "true" {} = true := by
  refine ⟨?_, ?_, ?_⟩ <;> decide

/-- C4 amended: a parenthesized group is evaluated as a unit only when
the entire operand handed to `_evaluate_primary` is the parenthesized
text (no unquoted `||`/`&&`/comparison operator around or inside it at
the current level): `(true)` and `!(false)` work, but operator splitting
is not parenthesis-aware, so any parenthesized sub-expression containing
`||` is split through — `(true || false) && true` and even the fully
parenthesized `(true || true)` evaluate to false. -/
theorem paren_primary_only_whole_operand :
    evaluate "(true)" {} = true ∧
    evaluate "!(false)" {} = true ∧
    evaluate "(true || false) && true" {} = false ∧
    evaluate "(true || true)" {} = false := by
  refine ⟨?_, ?_, ?_, ?_⟩ <;> decide

/-! ## Output extractor (`expressions/extractor.py`)

`OutputExtractor.extract` tries four strategies per declared name
(`_extract_structured_output`, `_extract_tagged_output`,
`_extract_key_value_output`, `_extract_inline_output`).  The strategies
are regular-expression searches; `extract` is embedded parametrically in
them (a strategy maps a declared name and the response text to an
optional value, exactly the Python methods' signatures), so the theorems
below hold for every behavior of the four regex searches, the concrete
ones included. -/

/-- The shape of one extraction strategy. -/
def Strategy : Type := String → String → Option String

/-- Python `a or b` where the operands are optional strings: a
non-`None`, non-empty left operand wins, otherwise the right operand. -/
def pyOrStr (a b : Option String) : Option String :=
  match a with
  | none => b
  | some s => if s.isEmpty then b else some s

/-- The `value = s1(...) or s2(...) or s3(...) or s4(...)` chain. -/
def strategyChain (s1 s2 s3 s4 : Strategy) (output response : String) :
    Option String :=
  pyOrStr (pyOrStr (pyOrStr (s1 output response) (s2 output response))
    (s3 output response)) (s4 output response)

/-- Embedding of `OutputExtractor.extract`: for each declared name try the strategies
in order, first truthy result wins; only truthy (non-empty) values are
recorded (`if value:`); a `None` or empty declared list yields `{}`. -/
def extract (s1 s2 s3 s4 : Strategy) (response : String)
    (declared_outputs : Option (List String)) : List (String × String) :=
  match declared_outputs with
  | none => []
  | some outs =>
      if outs.isEmpty then []
      else
        outs.foldl (fun results output =>
          match strategyChain s1 s2 s3 s4 output response with
          | some v => if v.isEmpty then results else results ++ [(output, v)]
          | none => results) []

/-- A strategy result Python treats as falsy: `None` or the empty string. -/
def emptyMatch (r : Option String) : Prop := r = none ∨ r = some ""

theorem pyOrStr_emptyMatch {a b : Option String} (ha : emptyMatch a)
    (hb : emptyMatch b) : emptyMatch (pyOrStr a b) := by
  rcases ha with h | h <;> subst h
  · exact hb
  · show emptyMatch (if ("" : String).isEmpty = true then b else some "")
    rw [if_pos (by decide)]
    exact hb

/-- Fold lemma: everything in the final dict was in the accumulator or
is a declared name with a non-empty value. -/
theorem extract_fold_mem (s1 s2 s3 s4 : Strategy) (response : String) :
    ∀ (outs : List String) (acc : List (String × String))
      (p : String × String),
      p ∈ outs.foldl (fun results output =>
        match strategyChain s1 s2 s3 s4 output response with
        | some v => if v.isEmpty then results else results ++ [(output, v)]
        | none => results) acc →
      p ∈ acc ∨ (p.1 ∈ outs ∧ p.2 ≠ "") := by
  intro outs
  induction outs with
  | nil => intro acc p hp; exact Or.inl hp
  | cons o os ih =>
    intro acc p hp
    rw [List.foldl_cons] at hp
    rcases ih _ p hp with h | h
    · cases hchain : strategyChain s1 s2 s3 s4 o response with
      | none => simp only [hchain] at h; exact Or.inl h
      | some v =>
        simp only [hchain] at h
        by_cases hv : v.isEmpty
        · rw [if_pos hv] at h; exact Or.inl h
        · rw [if_neg hv] at h
          rcases List.mem_append.mp h with h' | h'
          · exact Or.inl h'
          · right
            simp only [List.mem_singleton] at h'
            subst h'
            refine ⟨List.mem_cons_self _ _, ?_⟩
            simpa [String.isEmpty_iff] using hv
    · exact Or.inr ⟨List.mem_cons_of_mem _ h.1, h.2⟩

/-- Fold lemma: a name whose strategy chain is falsy is never added. -/
theorem extract_fold_absent (s1 s2 s3 s4 : Strategy) (response : String)
    (name : String)
    (hchain : ∀ v, strategyChain s1 s2 s3 s4 name response = some v → v = "") :
    ∀ (outs : List String) (acc : List (String × String)),
      (∀ v, (name, v) ∉ acc) →
      ∀ v, (name, v) ∉ outs.foldl (fun results output =>
        match strategyChain s1 s2 s3 s4 output response with
        | some v => if v.isEmpty then results else results ++ [(output, v)]
        | none => results) acc := by
  intro outs
  induction outs with
  | nil => intro acc hacc v; exact hacc v
  | cons o os ih =>
    intro acc hacc v
    rw [List.foldl_cons]
    refine ih _ ?_ v
    intro w hw
    cases hc : strategyChain s1 s2 s3 s4 o response with
    | none => simp only [hc] at hw; exact hacc w hw
    | some u =>
      simp only [hc] at hw
      by_cases hu : u.isEmpty
      · rw [if_pos hu] at hw; exact hacc w hw
      · rw [if_neg hu] at hw
        rcases List.mem_append.mp hw with h' | h'
        · exact hacc w h'
        · simp only [List.mem_singleton, Prod.mk.injEq] at h'
          apply hu
          rw [String.isEmpty_iff]
          exact h'.2 ▸ hchain u (h'.1 ▸ hc)

/-- C10: for every response text and declared-name list, the regex path
returns only keys drawn from the declared list with non-empty string
values, and a declared name for which no strategy produces a non-empty
match is absent from the map (stated for arbitrary strategy behavior,
which subsumes the four concrete regex searches). -/
theorem extract_keys_declared_values_nonempty (s1 s2 s3 s4 : Strategy)
    (response : String) (declared : List String) :
    (∀ p ∈ extract s1 s2 s3 s4 response (some declared),
      p.1 ∈ declared ∧ p.2 ≠ "") ∧
    (∀ name, emptyMatch (s1 name response) → emptyMatch (s2 name response) →
      emptyMatch (s3 name response) → emptyMatch (s4 name response) →
      ∀ v, (name, v) ∉ extract s1 s2 s3 s4 response (some declared)) := by
  constructor
  · intro p hp
    simp only [extract] at hp
    by_cases hempty : declared.isEmpty
    · rw [if_pos hempty] at hp; simp at hp
    · rw [if_neg hempty] at hp
      rcases extract_fold_mem s1 s2 s3 s4 response declared [] p hp with h | h
      · simp at h
      · exact h
  · intro name h1 h2 h3 h4 v
    simp only [extract]
    by_cases hempty : declared.isEmpty
    · rw [if_pos hempty]; simp
    · rw [if_neg hempty]
      refine extract_fold_absent s1 s2 s3 s4 response name ?_ declared [] (by simp) v
      intro w hw
      have : emptyMatch (strategyChain s1 s2 s3 s4 name response) :=
        pyOrStr_emptyMatch (pyOrStr_emptyMatch (pyOrStr_emptyMatch h1 h2) h3) h4
      rcases this with h | h
      · rw [hw] at h; cases h
      · rw [hw] at h; injection h

/-- Concrete instantiation of `extract_keys_declared_values_nonempty`:
with strategies returning nothing, the declared name is absent. -/
theorem extract_keys_declared_values_nonempty_witness :
    ("result", "42") ∉ extract (fun _ _ => none) (fun _ _ => none)
      (fun _ _ => some "") (fun _ _ => none) "response text" (some ["result"]) :=
  (extract_keys_declared_values_nonempty _ _ _ _ "response text" ["result"]).2
    "result" (Or.inl rfl) (Or.inl rfl) (Or.inr rfl) (Or.inl rfl) "42"

/-! ## Sidecar-file output extraction (`JobRunner._extract_outputs`) -/

/-- A scalar JSON value as found in a sidecar `outputs.json`.  Nested
containers and floats are omitted: their Python `str()` rendering is
immaterial to the claims, which only concern which keys are used and
that values are string-coerced. -/
inductive JVal where
  | jstr (s : String)
  | jint (n : Int)
  | jbool (b : Bool)
  | jnull
deriving DecidableEq, Repr

/-- Python `str()` of a scalar JSON value. -/
def jvalStr : JVal → String
  | .jstr s => s
  | .jint n => toString n
  | .jbool b => if b then "True" else "False"
  | .jnull => "None"

/-- Observable state of the sidecar `outputs.json` in the job's scratch
directory: absent, unreadable (`OSError`), malformed (`JSONDecodeError`),
or a well-formed top-level JSON object. -/
inductive SidecarFile where
  | missing
  | unreadable
  | malformed
  | wellFormed (entries : List (String × JVal))
deriving DecidableEq, Repr

/-- Embedding of `JobRunner._extract_outputs`: when the job has a scratch directory
(`output_dir` is `some`) and a readable well-formed sidecar object
exists, return its items filtered to the declared keys with values
string-coerced; otherwise (no directory, missing, unreadable or
malformed file) fall back to the regex extractor over the response. -/
def extractOutputs (s1 s2 s3 s4 : Strategy) (response : String)
    (output_keys : List String) (output_dir : Option SidecarFile) :
    List (String × String) :=
  match output_dir with
  | some (.wellFormed entries) =>
      (entries.filter (fun e => e.1 ∈ output_keys)).map
        (fun e => (e.1, jvalStr e.2))
  | some .missing | some .unreadable | some .malformed =>
      extract s1 s2 s3 s4 response (some output_keys)
  | none => extract s1 s2 s3 s4 response (some output_keys)

/-- C6: with a readable well-formed sidecar object the returned map is
exactly the file's top-level keys intersected with the declared names,
values string-coerced (membership characterization), and the regex
strategies and response text are never consulted (the result is
invariant under changing them both); a malformed or unreadable file
falls back to the regex strategies over the response. -/
theorem sidecar_file_priority (s1 s2 s3 s4 t1 t2 t3 t4 : Strategy)
    (response response' : String) (keys : List String)
    (entries : List (String × JVal)) :
    (∀ k v, (k, v) ∈ extractOutputs s1 s2 s3 s4 response keys
        (some (.wellFormed entries)) ↔
      (k ∈ keys ∧ ∃ jv, (k, jv) ∈ entries ∧ v = jvalStr jv)) ∧
    (extractOutputs s1 s2 s3 s4 response keys (some (.wellFormed entries)) =
      extractOutputs t1 t2 t3 t4 response' keys (some (.wellFormed entries))) ∧
    (extractOutputs s1 s2 s3 s4 response keys (some .malformed) =
      extract s1 s2 s3 s4 response (some keys)) ∧
    (extractOutputs s1 s2 s3 s4 response keys (some .unreadable) =
      extract s1 s2 s3 s4 response (some keys)) := by
  refine ⟨?_, rfl, rfl, rfl⟩
  intro k v
  unfold extractOutputs
  rw [List.mem_map]
  constructor
  · rintro ⟨⟨k', jv⟩, hmem, heq⟩
    rw [List.mem_filter] at hmem
    obtain ⟨hment, hkey⟩ := hmem
    obtain ⟨hk, hv⟩ := Prod.mk.injEq .. ▸ heq
    subst hk
    exact ⟨by simpa using hkey, jv, hment, hv.symm⟩
  · rintro ⟨hk, jv, hment, hv⟩
    exact ⟨(k, jv), List.mem_filter.mpr ⟨hment, by simpa using hk⟩,
      by rw [hv]⟩

/-- Concrete instantiation of `sidecar_file_priority`: the sidecar entry
`result ↦ 42` is used even though the response holds a conflicting tag
and a strategy would extract it. -/
theorem sidecar_file_priority_witness :
    ("result", "42") ∈ extractOutputs (fun _ _ => some "99") (fun _ _ => none)
      (fun _ _ => none) (fun _ _ => none) "<result>99</result>" ["result"]
      (some (.wellFormed [("result", .jstr "42")])) :=
  ((sidecar_file_priority (fun _ _ => some "99") (fun _ _ => none)
    (fun _ _ => none) (fun _ _ => none) (fun _ _ => none) (fun _ _ => none)
    (fun _ _ => none) (fun _ _ => none) "<result>99</result>" "x" ["result"]
    [("result", .jstr "42")]).1 "result" "42").mpr
    (by exact ⟨by decide, .jstr "42", by decide, rfl⟩)

/-! ## Job runner (`execution/job_runner.py`)

`JobRunner.run` with its collaborators as parameters: the template store
(`agent_store.load`, raising modelled as `Except`), the provider's
`execute`, the shell collaborator (merged stdout/stderr text, never
throws — the `(no output)`/`(error: ...)` defaulting happens inside the
source's `run_command`), and the observable state of the scratch-side
`outputs.json`.  The provider config (`ProviderConfig`) carries no
information any claim inspects and is omitted. -/

/-- Python truthiness of an optional string (`if job.prompt:` etc.). -/
def pyTruthyStrOpt (s : Option String) : Bool :=
  match s with
  | some v => !v.isEmpty
  | none => false

/-- Python `a or default` for an optional string
(`response.error or "Unknown error"`). -/
def pyOrDefault (s : Option String) (d : String) : String :=
  match s with
  | some v => if v.isEmpty then d else v
  | none => d

/-- The slice of an agent template (`models/agent.py`) the prompt build
reads; capability/turn/budget fields only shape the provider config. -/
structure Agent where
  prompt : String := ""
deriving Repr

/-- The provider response (`providers/base.py`), reduced to the fields
`JobRunner` reads for status and output extraction; token/cost counters
and the session id are bookkeeping no claim inspects. -/
structure ProviderResponse where
  success : Bool := true
  result : String := ""
  error : Option String := none
deriving Repr

/-- Result of one `JobRunner.run` call plus whether the executor
collaborator's `execute` was invoked during it. -/
structure RunOutcome where
  result : JobResultM
  providerCalled : Bool
deriving Repr

/-- Embedding of `JobResult.mark_skipped` (with a reason). -/
def JobResultM.markSkipped (r : JobResultM) (reason : String) : JobResultM :=
  { r with status := .skipped, error_message := some ("Skipped: " ++ reason) }

/-- Embedding of `JobResult.mark_failed`. -/
def JobResultM.markFailed (r : JobResultM) (error : String) : JobResultM :=
  { r with status := .failed, error_message := some error }

/-- Embedding of `JobResult.mark_completed`: outputs and response text are stored
only when truthy (non-empty), mirroring the `if outputs:` /
`if claude_output:` guards. -/
def JobResultM.markCompleted (r : JobResultM)
    (outputs : Option (List (String × String)))
    (claude_output : Option String) : JobResultM :=
  let newOutputs := match outputs with
    | some o => if o.isEmpty then r.outputs else o
    | none => r.outputs
  let newClaude := match claude_output with
    | some s => if s.isEmpty then r.claude_output else some s
    | none => r.claude_output
  { r with
    status := .completed
    outputs := newOutputs
    claude_output := newClaude }

/-- Python `str.replace` on character lists (all non-overlapping
occurrences, left to right); fuel is the input length. -/
def replaceChars (old new : List Char) : Nat → List Char → List Char
  | 0, cs => cs
  | _ + 1, [] => []
  | fuel + 1, c :: rest =>
      if old.isPrefixOf (c :: rest) ∧ !old.isEmpty then
        new ++ replaceChars old new fuel (rest.drop (old.length - 1))
      else c :: replaceChars old new fuel rest

/-- Python `s.replace(old, new)`. -/
def pyReplace (s old new : String) : String :=
  String.mk (replaceChars old.toList new.toList s.toList.length s.toList)

/-- The literal placeholder replaced in goal text (dollar, two opening
braces, ` job.output_dir `, two closing braces). -/
def outputDirPlaceholder : String :=
  "$" ++ String.mk [lbrace, lbrace] ++ " job.output_dir " ++ String.mk [rbrace, rbrace]

/-- Embedding of `OutputExtractor.output_instructions`: the tag-format instruction
text appended to prompts when outputs are declared. -/
def output_instructions (outputs : List String) : String :=
  if outputs.isEmpty then ""
  else
    let output_tags := String.intercalate "\n" (outputs.map (fun o =>
      "<" ++ o ++ ">your value here</" ++ o ++ ">"))
    let output_list := String.intercalate "\n" (outputs.map (fun o => "- " ++ o))
    "\n\nIMPORTANT: At the end of your response, provide the following outputs in this exact format:\n\n"
      ++ output_tags ++ "\n\nRequired outputs:\n" ++ output_list ++ "\n"

/-- Embedding of `JobRunner._build_output_instructions`: with a scratch directory the
instructions ask for a JSON sidecar file; otherwise fall back to the
regex-format instructions. -/
def buildOutputInstructions (outputs : List String) (output_dir : Option String) :
    String :=
  match output_dir with
  | some d =>
      let q := String.mk [dquote]
      let output_file := d ++ "/outputs.json"
      let hd : List String :=
        ["\n## Required Outputs\n",
         "After completing the goals, write your outputs to a JSON file.\n\n",
         "**Output file:** `" ++ output_file ++ "`\n\n",
         "The JSON should have these keys:\n"]
      let keyLines := outputs.map (fun key => "- `" ++ key ++ "`: (string value)\n")
      let exHead : List String :=
        ["\nExample:\n```json\n" ++ String.mk [lbrace] ++ "\n"]
      let exLines := outputs.enum.map (fun p =>
        let comma := if p.1 < outputs.length - 1 then "," else ""
        "  " ++ q ++ p.2 ++ q ++ ": " ++ q ++ "your value here" ++ q ++ comma ++ "\n")
      let exTail : List String := [String.mk [rbrace] ++ "\n```\n"]
      String.join (hd ++ keyLines ++ exHead ++ exLines ++ exTail)
  | none => output_instructions outputs

/-- Embedding of `JobRunner._build_goals_prompt`. -/
def buildGoalsPrompt (job : Job) (context_results : List (String × String))
    (output_dir : Option String) : String :=
  let ctxParts : List String :=
    if context_results.isEmpty then []
    else "## Current Context\n" ::
      context_results.map (fun p =>
        "### " ++ p.1 ++ "\n```\n" ++ p.2 ++ "\n```\n")
  let dirParts : List String :=
    match output_dir with
    | some d =>
        ["## Output Directory\n",
         "Your scratch directory for this job is: `" ++ d ++ "`\n",
         "Use this directory for any files you need to create.\n\n"]
    | none => []
  let goalParts : List String :=
    (job.goals.getD []).enum.map (fun p =>
      let goal := match output_dir with
        | some d => pyReplace p.2 outputDirPlaceholder d
        | none => p.2
      toString (p.1 + 1) ++ ". " ++ goal ++ "\n")
  String.intercalate "\n"
    (ctxParts ++ dirParts ++ ["## Goals\n", "Accomplish the following goals:\n"]
      ++ goalParts ++
      ["\nUse your judgment on how best to achieve these goals. ",
       "You have full autonomy to determine the approach.\n"])

/-- Context gathering (the dry-run branch of `_run_goals` plus
`_gather_context_parallel`, which preserves declaration order). -/
def gatherContext (job : Job) (shell : String → String) (dry_run : Bool) :
    List (String × String) :=
  if job.context.isEmpty then []
  else if dry_run then
    job.context.map (fun p => (p.1, "[DRY RUN] Would run: " ++ p.2))
  else job.context.map (fun p => (p.1, shell p.2))

/-- The full goals-job prompt as assembled in `_run_goals` (context
section, goals, plus output instructions when outputs are declared). -/
def assembleGoalsPrompt (shell : String → String) (job : Job)
    (output_dir : Option String) (dry_run : Bool) : String :=
  let context_results := gatherContext job shell dry_run
  let basePrompt := buildGoalsPrompt job context_results output_dir
  let outputs := job.all_outputs
  if outputs.isEmpty then basePrompt
  else basePrompt ++ buildOutputInstructions outputs output_dir

/-- Embedding of `JobRunner._build_prompt_and_config`, reduced to the prompt (the
returned `ProviderConfig` carries nothing any claim reads).
`agent_store` models the template collaborator, whose `load` may raise. -/
def buildPrompt (agent_store : String → Except String Agent)
    (job_name : String) (job : Job) (ctx : ExpressionContext) :
    Except String String :=
  let finish : String → Except String String := fun base =>
    let interpolated := interpolate base ctx
    if !(job.outputs.getD []).isEmpty then
      .ok (interpolated ++ output_instructions (job.outputs.getD []))
    else .ok interpolated
  if pyTruthyStrOpt job.agent then
    match agent_store (job.agent.getD "") with
    | .error e => .error e
    | .ok agent => finish agent.prompt
  else if pyTruthyStrOpt job.prompt then
    finish (job.prompt.getD "")
  else
    .error ("Job '" ++ job_name ++ "' has neither 'agent' nor 'prompt' defined")

/-- Scratch directory for a run and job
(`_get_scratch_base() / run_id / job_name`); the home-relative base is a
parameter. -/
def scratchDir (scratch_base run_id job_name : String) : String :=
  scratch_base ++ "/" ++ run_id ++ "/" ++ job_name

/-- Embedding of `context.set_current_job(...)` / `context.clear_current_job()` at
the top of `JobRunner.run`. -/
def contextForJob (ctx : ExpressionContext) (output_dir : Option String) :
    ExpressionContext :=
  match output_dir with
  | some d => { ctx with current_job := [("output_dir", d)] }
  | none => { ctx with current_job := [] }

/-- Embedding of `JobRunner._run_single_prompt`. -/
def runSinglePrompt (agent_store : String → Except String Agent)
    (execute : String → ProviderResponse) (fileState : Option SidecarFile)
    (s1 s2 s3 s4 : Strategy) (job_name : String) (job : Job)
    (ctx : ExpressionContext) (dry_run : Bool) (result : JobResultM) :
    RunOutcome :=
  match buildPrompt agent_store job_name job ctx with
  | .error e => ⟨result.markFailed e, false⟩
  | .ok prompt =>
      if dry_run then
        ⟨{ result.markCompleted none none with
            claude_output :=
              some ("[DRY RUN] Would execute: " ++ prompt.take 200 ++ "...") },
          false⟩
      else
        let response := execute prompt
        if !response.success then
          ⟨result.markFailed (pyOrDefault response.error "Unknown error"), true⟩
        else
          let outputs := job.outputs.getD []
          if !outputs.isEmpty then
            ⟨result.markCompleted
              (some (extractOutputs s1 s2 s3 s4 response.result outputs fileState))
              (some response.result), true⟩
          else ⟨result.markCompleted none (some response.result), true⟩

/-- Embedding of `JobRunner._run_goals`. -/
def runGoals (execute : String → ProviderResponse) (shell : String → String)
    (fileState : Option SidecarFile) (s1 s2 s3 s4 : Strategy) (job : Job)
    (output_dir : Option String) (dry_run : Bool) (result : JobResultM) :
    RunOutcome :=
  let prompt := assembleGoalsPrompt shell job output_dir dry_run
  let outputs := job.all_outputs
  if dry_run then
    ⟨{ result.markCompleted none none with
        claude_output :=
          some ("[DRY RUN] Would execute with context:\n" ++
            prompt.take 500 ++ "...") }, false⟩
  else
    let response := execute prompt
    if !response.success then
      ⟨result.markFailed (pyOrDefault response.error "Unknown error"), true⟩
    else if !outputs.isEmpty then
      ⟨result.markCompleted
        (some (extractOutputs s1 s2 s3 s4 response.result outputs fileState))
        (some response.result), true⟩
    else ⟨result.markCompleted none (some response.result), true⟩

/-- Embedding of `JobRunner.run`: mark started, set up the scratch directory and the
transient `job.*` context scope, evaluate the guard (false short-circuits
to SKIPPED; the embedded evaluator is total, so the source's
guard-exception branch has no counterpart), then dispatch to the goals
or single-prompt path.  `sidecar` is the observable state of
`outputs.json` in the scratch directory (only consulted when a scratch
directory exists, i.e. when `run_id` is given). -/
def runJob (agent_store : String → Except String Agent)
    (execute : String → ProviderResponse) (shell : String → String)
    (sidecar : SidecarFile) (s1 s2 s3 s4 : Strategy) (scratch_base : String)
    (job_name : String) (job : Job) (ctx : ExpressionContext)
    (dry_run : Bool) (run_id : Option String) : RunOutcome :=
  let result : JobResultM := { status := .running }
  let output_dir := run_id.map (fun rid => scratchDir scratch_base rid job_name)
  let ctx := contextForJob ctx output_dir
  let fileState := output_dir.map (fun _ => sidecar)
  let dispatch : RunOutcome :=
    if job.has_goals then
      runGoals execute shell fileState s1 s2 s3 s4 job output_dir dry_run result
    else
      runSinglePrompt agent_store execute fileState s1 s2 s3 s4 job_name job
        ctx dry_run result
  if pyTruthyStrOpt job.if_condition then
    if !(evaluate (job.if_condition.getD "") ctx) then
      ⟨result.markSkipped ("Condition '" ++ job.if_condition.getD "" ++
        "' evaluated to false"), false⟩
    else dispatch
  else dispatch

/-- C5 counterexample: a dry run still evaluates the job's guard, so a
job whose guard evaluates to false returns SKIPPED under dryRun=true,
not COMPLETED, and carries no preview text (the claim requires every
dry-run result to be COMPLETED with a preview). -/
theorem dry_run_guard_counterexample :
    (runJob (fun _ => .error "no agent") (fun _ => {}) (fun _ => "")
      .missing (fun _ _ => none) (fun _ _ => none) (fun _ _ => none)
      (fun _ _ => none) "/scratch" "job1"
      { prompt := some "do it", if_condition := some "false" }
      {} true none).result.status = .skipped ∧
    (runJob (fun _ => .error "no agent") (fun _ => {}) (fun _ => "")
      .missing (fun _ _ => none) (fun _ _ => none) (fun _ _ => none)
      (fun _ _ => none) "/scratch" "job1"
      { prompt := some "do it", if_condition := some "false" }
      {} true none).providerCalled = false := by
  constructor <;> decide

/-- C5 amended: with dryRun=true the executor collaborator's execute is
never invoked, for every job, workflow and context; and whenever the
guard (if any) passes, a goals job returns COMPLETED carrying the
preview-prefixed 500-character truncation of the assembled instruction
text, while a prompt/agent job whose prompt assembly succeeds returns
COMPLETED carrying the preview-prefixed 200-character truncation (a
failing guard yields SKIPPED and a failing assembly FAILED instead,
still without dispatching). -/
theorem dry_run_never_dispatches
    (agent_store : String → Except String Agent)
    (execute : String → ProviderResponse) (shell : String → String)
    (sidecar : SidecarFile) (s1 s2 s3 s4 : Strategy)
    (scratch_base job_name : String) (job : Job) (ctx : ExpressionContext)
    (run_id : Option String) (output_dir : Option String)
    (ctxJob : ExpressionContext) (out : RunOutcome)
    (hdir : output_dir = run_id.map (fun rid => scratchDir scratch_base rid job_name))
    (hctx : ctxJob = contextForJob ctx output_dir)
    (hout : out = runJob agent_store execute shell sidecar s1 s2 s3 s4
      scratch_base job_name job ctx true run_id) :
    out.providerCalled = false ∧
    ((pyTruthyStrOpt job.if_condition = true →
        evaluate (job.if_condition.getD "") ctxJob = true) →
      (job.has_goals = true →
        out.result.status = .completed ∧
        out.result.claude_output = some ("[DRY RUN] Would execute with context:\n"
          ++ (assembleGoalsPrompt shell job output_dir true).take 500 ++ "...")) ∧
      (job.has_goals = false → ∀ p,
        buildPrompt agent_store job_name job ctxJob = .ok p →
        out.result.status = .completed ∧
        out.result.claude_output =
          some ("[DRY RUN] Would execute: " ++ p.take 200 ++ "..."))) := by
  subst hdir; subst hctx; subst hout
  constructor
  · -- the executor collaborator is never invoked under dry run
    by_cases hguard : pyTruthyStrOpt job.if_condition = true
    · by_cases heval : evaluate (job.if_condition.getD "")
          (contextForJob ctx (run_id.map
            (fun rid => scratchDir scratch_base rid job_name))) = true
      · by_cases hg : job.has_goals = true
        · simp [runJob, hguard, heval, hg, runGoals]
        · rw [Bool.not_eq_true] at hg
          cases hbp : buildPrompt agent_store job_name job
              (contextForJob ctx (run_id.map
                (fun rid => scratchDir scratch_base rid job_name))) with
          | error e => simp [runJob, hguard, heval, hg, runSinglePrompt, hbp]
          | ok p => simp [runJob, hguard, heval, hg, runSinglePrompt, hbp]
      · rw [Bool.not_eq_true] at heval
        simp [runJob, hguard, heval]
    · rw [Bool.not_eq_true] at hguard
      by_cases hg : job.has_goals = true
      · simp [runJob, hguard, hg, runGoals]
      · rw [Bool.not_eq_true] at hg
        cases hbp : buildPrompt agent_store job_name job
            (contextForJob ctx (run_id.map
              (fun rid => scratchDir scratch_base rid job_name))) with
        | error e => simp [runJob, hguard, hg, runSinglePrompt, hbp]
        | ok p => simp [runJob, hguard, hg, runSinglePrompt, hbp]
  · -- a passing (or absent) guard yields COMPLETED with the preview
    intro himp
    by_cases hguard : pyTruthyStrOpt job.if_condition = true
    · have heval := himp hguard
      constructor
      · intro hg
        simp [runJob, hguard, heval, hg, runGoals, JobResultM.markCompleted]
      · intro hg p hbp
        simp [runJob, hguard, heval, hg, runSinglePrompt, hbp,
          JobResultM.markCompleted]
    · rw [Bool.not_eq_true] at hguard
      constructor
      · intro hg
        simp [runJob, hguard, hg, runGoals, JobResultM.markCompleted]
      · intro hg p hbp
        simp [runJob, hguard, hg, runSinglePrompt, hbp,
          JobResultM.markCompleted]

/-- Concrete instantiation of `dry_run_never_dispatches`: a guard-free
inline-prompt job under dry run is COMPLETED with the truncated preview
and never dispatches. -/
theorem dry_run_never_dispatches_witness :
    (runJob (fun _ => .error "no agent") (fun _ => {}) (fun _ => "")
      .missing (fun _ _ => none) (fun _ _ => none) (fun _ _ => none)
      (fun _ _ => none) "/s" "j" { prompt := some "hello" } {} true
      none).providerCalled = false ∧
    (runJob (fun _ => .error "no agent") (fun _ => {}) (fun _ => "")
      .missing (fun _ _ => none) (fun _ _ => none) (fun _ _ => none)
      (fun _ _ => none) "/s" "j" { prompt := some "hello" } {} true
      none).result.status = .completed := by
  have h := dry_run_never_dispatches (fun _ => .error "no agent")
    (fun _ => {}) (fun _ => "") .missing (fun _ _ => none) (fun _ _ => none)
    (fun _ _ => none) (fun _ _ => none) "/s" "j" { prompt := some "hello" }
    {} none none {} _ rfl rfl rfl
  refine ⟨h.1, ?_⟩
  have h2 := (h.2 (fun hc => absurd hc (by decide))).2 (by decide)
    ("hello") (by rfl)
  exact h2.1

/-! ## Workflow validation (`Workflow.validate_workflow` in
`models/workflow.py`) -/

/-- One job's execution-mode check: at least one of `agent`, `prompt`,
or a non-empty `goals` list (`agent`/`prompt` are compared against
`None`, not for truthiness, in the source). -/
def jobHasMode (j : Job) : Bool :=
  j.agent.isSome || j.prompt.isSome ||
    (match j.goals with
     | some gs => !gs.isEmpty
     | none => false)

/-- The first validation loop: raises on the first job (in dict order)
without an execution mode. -/
def checkModes : List (String × Job) → Except String Unit
  | [] => .ok ()
  | (name, j) :: rest =>
      if !(jobHasMode j) then
        .error ("Job '" ++ name ++ "' must have 'agent', 'prompt', or 'goals' defined")
      else checkModes rest

/-- The second validation loop: every `needs` entry must name an
existing job; raises on the first offending entry. -/
def checkDeps (wf : Workflow) : List (String × Job) → Except String Unit
  | [] => .ok ()
  | (name, j) :: rest =>
      match j.needsList.find? (fun dep => (wf.findJob dep).isNone) with
      | some dep =>
          .error ("Job '" ++ name ++ "' depends on unknown job '" ++ dep ++ "'")
      | none => checkDeps wf rest

mutual

/-- Embedding of `_detect_cycles`'s recursive `dfs`: `recStack` is the set of
ancestors of the current call (the source's shared `rec_stack` set is
always exactly that, since each call removes itself before returning),
`visited` is threaded through and returned, `path` is the ancestor list
used for the cycle report.  Fueled for structural recursion; the
exhaustion arm is unreachable from `detect_cycles`' generous fuel. -/
def dfsVisit (wf : Workflow) : Nat → String → List String → List String →
    List String → Except String (List String)
  | 0, _, _, _, visited => .ok visited
  | fuel + 1, job_name, path, recStack, visited =>
      if job_name ∈ recStack then
        .error ("Circular dependency detected: " ++
          String.intercalate " -> " (path ++ [job_name]))
      else if job_name ∈ visited then .ok visited
      else
        let deps := match wf.findJob job_name with
          | some j => j.needsList
          | none => []
        dfsDeps wf fuel deps (path ++ [job_name]) (job_name :: recStack)
          (job_name :: visited)

/-- Sequential DFS over one job's dependency list, threading `visited`. -/
def dfsDeps (wf : Workflow) : Nat → List String → List String →
    List String → List String → Except String (List String)
  | 0, _, _, _, visited => .ok visited
  | _ + 1, [], _, _, visited => .ok visited
  | fuel + 1, dep :: rest, path, recStack, visited =>
      match dfsVisit wf fuel dep path recStack visited with
      | .error e => .error e
      | .ok visited' => dfsDeps wf fuel rest path recStack visited'

end

/-- Fuel that strictly dominates the DFS call tree: every nesting level
is a visit or one list step, both bounded by jobs plus edges. -/
def cycleFuel (wf : Workflow) : Nat :=
  (wf.jobs.length + 2) *
    (wf.jobs.length + 2 +
      wf.jobs.foldl (fun n p => n + p.2.needsList.length) 0)

/-- The outer `for job_name in self.jobs` loop of `_detect_cycles`. -/
def detectCyclesLoop (wf : Workflow) : List String → List String →
    Except String Unit
  | [], _ => .ok ()
  | n :: rest, visited =>
      match dfsVisit wf (cycleFuel wf) n [] [] visited with
      | .error e => .error e
      | .ok visited' => detectCyclesLoop wf rest visited'

/-- Embedding of `_detect_cycles`. -/
def detect_cycles (wf : Workflow) : Except String Unit :=
  detectCyclesLoop wf (wf.jobs.map Prod.fst) []

/-- Embedding of `Workflow.validate_workflow`: execution modes, then dependency
existence, then cycle detection; the first failure wins. -/
def validate_workflow (wf : Workflow) : Except String Unit :=
  match checkModes wf.jobs with
  | .error e => .error e
  | .ok _ =>
      match checkDeps wf wf.jobs with
      | .error e => .error e
      | .ok _ => detect_cycles wf

theorem checkModes_ok_iff (jobs : List (String × Job)) :
    checkModes jobs = .ok () ↔ ∀ p ∈ jobs, jobHasMode p.2 = true := by
  induction jobs with
  | nil => simp [checkModes]
  | cons hd rest ih =>
    obtain ⟨name, j⟩ := hd
    by_cases hmode : jobHasMode j = true
    · rw [checkModes]
      rw [if_neg (by simp [hmode])]
      rw [ih]
      constructor
      · intro h p hp
        rcases List.mem_cons.mp hp with h' | h'
        · rw [h']; exact hmode
        · exact h p h'
      · intro h p hp
        exact h p (List.mem_cons_of_mem _ hp)
    · rw [Bool.not_eq_true] at hmode
      rw [checkModes]
      rw [if_pos (by simp [hmode])]
      constructor
      · intro h; cases h
      · intro h
        have := h (name, j) (List.mem_cons_self _ _)
        rw [hmode] at this
        cases this

/-- C7 counterexample: a workflow whose only job defines BOTH an inline
prompt and a non-empty goal list (two execution modes) passes
validation, although the claim requires it to fail with a structural
error. -/
theorem validate_two_modes_counterexample :
    validate_workflow ⟨"w", [("a", { prompt := some "p", goals := some ["g"] })]⟩
      = .ok () ∧
    ({ prompt := some "p", goals := some ["g"] } : Job).prompt.isSome = true ∧
    ({ prompt := some "p", goals := some ["g"] } : Job).has_goals = true := by
  refine ⟨rfl, rfl, rfl⟩

/-- C7 amended: validation requires every job to define AT LEAST ONE
execution mode (goal list, inline prompt, or agent reference): a
workflow with a modeless job fails with a structural error, and a
validated workflow has a mode for every job; a job with MORE than one
mode defined does not by itself fail validation. -/
theorem validate_requires_some_mode :
    (∀ wf : Workflow, validate_workflow wf = .ok () →
      ∀ name j, (name, j) ∈ wf.jobs → jobHasMode j = true) ∧
    (∀ (wf : Workflow) name j, (name, j) ∈ wf.jobs → jobHasMode j = false →
      ∃ e, validate_workflow wf = .error e) := by
  constructor
  · intro wf hok name j hmem
    unfold validate_workflow at hok
    cases hcm : checkModes wf.jobs with
    | error e => rw [hcm] at hok; cases hok
    | ok u =>
        cases u
        exact (checkModes_ok_iff wf.jobs).mp hcm (name, j) hmem
  · intro wf name j hmem hmode
    have hne : checkModes wf.jobs ≠ .ok () := by
      intro hok
      have hall := (checkModes_ok_iff wf.jobs).mp hok
      have := hall (name, j) hmem
      rw [hmode] at this
      cases this
    cases hcm : checkModes wf.jobs with
    | error e =>
        refine ⟨e, ?_⟩
        unfold validate_workflow
        rw [hcm]
    | ok u => cases u; exact absurd hcm hne

/-- Concrete instantiation of `validate_requires_some_mode`: a workflow
whose job has no mode fails validation. -/
theorem validate_requires_some_mode_witness :
    ∃ e, validate_workflow ⟨"w", [("a", { needs := some [] })]⟩ = .error e :=
  validate_requires_some_mode.2 ⟨"w", [("a", { needs := some [] })]⟩
    "a" { needs := some [] } (by decide) (by decide)

/-! ## Failure cascading (`WorkflowRunner._skip_dependents`) -/

/-- The scheduler state `_skip_dependents` touches: each job's result
status and error/skip message (`run.job_results`; a result exists for
every job of the run, so the maps are total) and the `pending` set. -/
structure SkipState where
  statuses : String → JobStatus
  reasons : String → Option String
  pending : Finset String

/-- Embedding of `result.mark_skipped(f"Dependency '<failed_job>' failed")` followed
by `run.update_job_result(result)` and `pending.discard(dep)`. -/
def markSkippedDep (st : SkipState) (dep failed : String) : SkipState :=
  { statuses := fun n => if n = dep then .skipped else st.statuses n
    reasons := fun n =>
      if n = dep then some ("Skipped: Dependency '" ++ failed ++ "' failed")
      else st.reasons n
    pending := st.pending.erase dep }

/-- Total length of the pending frames, for termination. -/
def stackWeight (stack : List (String × List String)) : Nat :=
  stack.foldr (fun f n => f.2.length + 1 + n) 0

/-- Iterative form of the recursive `_skip_dependents`: a frame
`(parent, ds)` is the loop `for dep in dependents(parent)` with `ds`
still to process; a pending `dep` is marked skipped, removed from
`pending`, and its own dependents are pushed to be processed before the
remaining siblings — exactly the source's depth-first recursion order,
with each recursive call's membership test against the current `pending`. -/
def skipLoop (wf : Workflow) : List (String × List String) → SkipState → SkipState
  | [], st => st
  | (_, []) :: stack, st => skipLoop wf stack st
  | (parent, dep :: rest) :: stack, st =>
      if hdep : dep ∈ st.pending then
        skipLoop wf ((dep, wf.dependents dep) :: (parent, rest) :: stack)
          (markSkippedDep st dep parent)
      else skipLoop wf ((parent, rest) :: stack) st
termination_by stack st => (st.pending.card, stackWeight stack)
decreasing_by
  · apply Prod.Lex.right
    simp [stackWeight]
  · apply Prod.Lex.left
    simp only [markSkippedDep]
    rw [Finset.card_erase_of_mem hdep]
    have : 0 < st.pending.card := Finset.card_pos.mpr ⟨dep, hdep⟩
    omega
  · apply Prod.Lex.right
    simp [stackWeight]

/-- Embedding of `WorkflowRunner._skip_dependents(failed_job, workflow, run, pending)`. -/
def skipDependents (wf : Workflow) (failed_job : String) (st : SkipState) :
    SkipState :=
  skipLoop wf [(failed_job, wf.dependents failed_job)] st

/-- One `dependents` edge: `b` directly needs `a`. -/
def DepEdge (wf : Workflow) (a b : String) : Prop := b ∈ wf.dependents a

/-- Reflexive-transitive reachability along `dependents` edges. -/
inductive Reaches (wf : Workflow) : String → String → Prop
  | refl (a : String) : Reaches wf a a
  | head {a b c : String} : DepEdge wf a b → Reaches wf b c → Reaches wf a c

theorem Reaches.trans_edge {wf : Workflow} {a b c : String}
    (hab : Reaches wf a b) (hbc : DepEdge wf b c) : Reaches wf a c := by
  induction hab with
  | refl a => exact Reaches.head hbc (Reaches.refl c)
  | head hxy _ ih => exact Reaches.head hxy (ih hbc)

/-- Reachability along `dependents` edges through nodes of `P` only
(start and end included). -/
inductive ReachesIn (wf : Workflow) (P : Finset String) : String → String → Prop
  | refl (a : String) (ha : a ∈ P) : ReachesIn wf P a a
  | head {a b c : String} (ha : a ∈ P) (hab : DepEdge wf a b)
      (hbc : ReachesIn wf P b c) : ReachesIn wf P a c

/-- Reachability from the failed job by at least one edge ("transitively
reachable via `dependents`"). -/
def TransDependent (wf : Workflow) (failed j : String) : Prop :=
  ∃ d, DepEdge wf failed d ∧ Reaches wf d j

/-- Reachability from the failed job by at least one edge with the whole
path (after the failed job) pending. -/
def CascadeTarget (wf : Workflow) (P : Finset String) (failed j : String) :
    Prop :=
  ∃ d, DepEdge wf failed d ∧ ReachesIn wf P d j

theorem ReachesIn.start_mem {wf : Workflow} {P : Finset String} {a b : String}
    (h : ReachesIn wf P a b) : a ∈ P := by
  cases h with
  | refl _ ha => exact ha
  | head ha _ _ => exact ha

/-- Once a job has left `pending`, the loop never touches it again (the
loop only marks jobs it finds in `pending` and only erases). -/
theorem skipLoop_stable (wf : Workflow) :
    ∀ (stack : List (String × List String)) (st : SkipState) (j : String),
      j ∉ st.pending →
      (skipLoop wf stack st).statuses j = st.statuses j ∧
      (skipLoop wf stack st).reasons j = st.reasons j ∧
      j ∉ (skipLoop wf stack st).pending := by
  intro stack st
  induction stack, st using skipLoop.induct wf with
  | case1 st =>
      intro j hj
      rw [skipLoop]
      exact ⟨rfl, rfl, hj⟩
  | case2 fst stack st ih =>
      intro j hj
      rw [skipLoop]
      exact ih j hj
  | case3 parent dep rest stack st hdep ih =>
      intro j hj
      rw [skipLoop, dif_pos hdep]
      have hne : j ≠ dep := fun h => hj (h ▸ hdep)
      have hj' : j ∉ (markSkippedDep st dep parent).pending := by
        simp only [markSkippedDep]
        rw [Finset.mem_erase]
        rintro ⟨-, hmem⟩
        exact hj hmem
      obtain ⟨h1, h2, h3⟩ := ih j hj'
      refine ⟨?_, ?_, h3⟩
      · rw [h1]; simp only [markSkippedDep]; rw [if_neg hne]
      · rw [h2]; simp only [markSkippedDep]; rw [if_neg hne]
  | case4 parent dep rest stack st hdep ih =>
      intro j hj
      rw [skipLoop, dif_neg hdep]
      exact ih j hj

/-- The loop only touches jobs reachable from the failed job: a job with
no `dependents` path from it keeps its status, its message, and its
pending membership. -/
theorem skipLoop_sound (wf : Workflow) (failed : String) :
    ∀ (stack : List (String × List String)) (st : SkipState),
      (∀ fr ∈ stack, ∀ d ∈ fr.2, Reaches wf failed d) →
      ∀ j, ¬ Reaches wf failed j →
      (skipLoop wf stack st).statuses j = st.statuses j ∧
      (skipLoop wf stack st).reasons j = st.reasons j ∧
      (j ∈ (skipLoop wf stack st).pending ↔ j ∈ st.pending) := by
  intro stack st
  induction stack, st using skipLoop.induct wf with
  | case1 st =>
      intro _ j _
      rw [skipLoop]
      exact ⟨rfl, rfl, Iff.rfl⟩
  | case2 fst stack st ih =>
      intro hfr j hj
      rw [skipLoop]
      exact ih (fun fr hm d hd => hfr fr (List.mem_cons_of_mem _ hm) d hd) j hj
  | case3 parent dep rest stack st hdep ih =>
      intro hfr j hj
      rw [skipLoop, dif_pos hdep]
      have hreachdep : Reaches wf failed dep :=
        hfr (parent, dep :: rest) (List.mem_cons_self _ _) dep
          (List.mem_cons_self _ _)
      have hne : j ≠ dep := fun h => hj (h ▸ hreachdep)
      have hfr' : ∀ fr ∈ (dep, wf.dependents dep) :: (parent, rest) :: stack,
          ∀ d ∈ fr.2, Reaches wf failed d := by
        intro fr hm d hd
        rcases List.mem_cons.mp hm with h | h
        · subst h
          exact hreachdep.trans_edge hd
        · rcases List.mem_cons.mp h with h' | h'
          · subst h'
            exact hfr (parent, dep :: rest) (List.mem_cons_self _ _) d
              (List.mem_cons_of_mem _ hd)
          · exact hfr fr (List.mem_cons_of_mem _ h') d hd
      obtain ⟨h1, h2, h3⟩ := ih hfr' j hj
      refine ⟨?_, ?_, ?_⟩
      · rw [h1]; simp only [markSkippedDep]; rw [if_neg hne]
      · rw [h2]; simp only [markSkippedDep]; rw [if_neg hne]
      · rw [h3]; simp only [markSkippedDep]
        simp [Finset.mem_erase, hne]
  | case4 parent dep rest stack st hdep ih =>
      intro hfr j hj
      rw [skipLoop, dif_neg hdep]
      refine ih ?_ j hj
      intro fr hm d hd
      rcases List.mem_cons.mp hm with h | h
      · subst h
        exact hfr (parent, dep :: rest) (List.mem_cons_self _ _) d
          (List.mem_cons_of_mem _ hd)
      · exact hfr fr (List.mem_cons_of_mem _ h) d hd

/-- A pending path to `j ≠ x` survives erasing `x` from the pending set:
either it already avoided `x`, or its suffix after the last visit to `x`
starts at a direct dependent of `x`. -/
theorem ReachesIn.avoid_or_through {wf : Workflow} {P : Finset String}
    {x a j : String} (h : ReachesIn wf P a j) :
    j ≠ x →
    (a ≠ x ∧ ReachesIn wf (P.erase x) a j) ∨
    (∃ y, DepEdge wf x y ∧ ReachesIn wf (P.erase x) y j) := by
  induction h with
  | refl a ha =>
      intro hj
      exact Or.inl ⟨hj, ReachesIn.refl a (Finset.mem_erase.mpr ⟨hj, ha⟩)⟩
  | @head a b c ha hab _ ih =>
      intro hj
      rcases ih hj with ⟨hbx, hb⟩ | hy
      · by_cases hax : a = x
        · subst hax
          exact Or.inr ⟨b, hab, hb⟩
        · exact Or.inl ⟨hax,
            ReachesIn.head (Finset.mem_erase.mpr ⟨hax, ha⟩) hab hb⟩
      · exact Or.inr hy

/-- DFS completeness of the cascade loop: a job that some frame's listed
dependent reaches through pending nodes ends SKIPPED, out of `pending`,
with a skip message naming a direct dependency `p` that is itself
reachable from the failed job.  The frame invariant states that every
frame's parent is reachable from the failed job and its list consists of
the parent's direct dependents. -/
theorem skipLoop_marks (wf : Workflow) (failed : String) :
    ∀ (stack : List (String × List String)) (st : SkipState),
      (∀ fr ∈ stack, Reaches wf failed fr.1 ∧ ∀ d ∈ fr.2, DepEdge wf fr.1 d) →
      ∀ j, (∃ fr ∈ stack, ∃ d ∈ fr.2, ReachesIn wf st.pending d j) →
      (skipLoop wf stack st).statuses j = .skipped ∧
      j ∉ (skipLoop wf stack st).pending ∧
      ∃ p, Reaches wf failed p ∧ DepEdge wf p j ∧
        (skipLoop wf stack st).reasons j =
          some ("Skipped: Dependency '" ++ p ++ "' failed") := by
  intro stack st
  induction stack, st using skipLoop.induct wf with
  | case1 st =>
      rintro _ j ⟨fr, hfr, -⟩
      exact absurd hfr (List.not_mem_nil fr)
  | case2 fst stack st ih =>
      rintro hfrs j ⟨fr, hfrmem, d, hd, hpath⟩
      rw [skipLoop]
      refine ih (fun fr' hm => hfrs fr' (List.mem_cons_of_mem _ hm)) j ?_
      rcases List.mem_cons.mp hfrmem with h | h
      · rw [h] at hd
        exact absurd hd (List.not_mem_nil d)
      · exact ⟨fr, h, d, hd, hpath⟩
  | case3 parent dep rest stack st hdep ih =>
      rintro hfrs j ⟨fr, hfrmem, d, hd, hpath⟩
      rw [skipLoop, dif_pos hdep]
      have hhead := hfrs (parent, dep :: rest) (List.mem_cons_self _ _)
      have hreachdep : Reaches wf failed dep :=
        hhead.1.trans_edge (hhead.2 dep (List.mem_cons_self _ _))
      have hfrs' : ∀ fr' ∈ (dep, wf.dependents dep) :: (parent, rest) :: stack,
          Reaches wf failed fr'.1 ∧ ∀ d' ∈ fr'.2, DepEdge wf fr'.1 d' := by
        intro fr' hm
        rcases List.mem_cons.mp hm with h | h
        · subst h
          exact ⟨hreachdep, fun d' hd' => hd'⟩
        · rcases List.mem_cons.mp h with h' | h'
          · subst h'
            exact ⟨hhead.1, fun d' hd' => hhead.2 d' (List.mem_cons_of_mem _ hd')⟩
          · exact hfrs fr' (List.mem_cons_of_mem _ h')
      by_cases hjd : j = dep
      · have hjout : j ∉ (markSkippedDep st dep parent).pending := by
          simp [markSkippedDep, hjd]
        obtain ⟨h1, h2, h3⟩ := skipLoop_stable wf
          ((dep, wf.dependents dep) :: (parent, rest) :: stack)
          (markSkippedDep st dep parent) j hjout
        refine ⟨?_, h3, parent, hhead.1, ?_, ?_⟩
        · rw [h1]; simp only [markSkippedDep]; rw [if_pos hjd]
        · rw [hjd]; exact hhead.2 dep (List.mem_cons_self _ _)
        · rw [h2]; simp only [markSkippedDep]; rw [if_pos hjd]
      · have hpend1 : (markSkippedDep st dep parent).pending =
            st.pending.erase dep := rfl
        rcases hpath.avoid_or_through hjd with ⟨hdx, hpath'⟩ | ⟨y, hy, hpath'⟩
        · refine ih hfrs' j ?_
          rcases List.mem_cons.mp hfrmem with h | h
          · have hd' : d ∈ dep :: rest := by rw [h] at hd; exact hd
            rcases List.mem_cons.mp hd' with h' | h'
            · exact absurd h' hdx
            · exact ⟨(parent, rest),
                List.mem_cons_of_mem _ (List.mem_cons_self _ _), d, h',
                hpend1 ▸ hpath'⟩
          · exact ⟨fr, List.mem_cons_of_mem _ (List.mem_cons_of_mem _ h),
              d, hd, hpend1 ▸ hpath'⟩
        · refine ih hfrs' j ?_
          exact ⟨(dep, wf.dependents dep), List.mem_cons_self _ _, y, hy,
            hpend1 ▸ hpath'⟩
  | case4 parent dep rest stack st hdep ih =>
      rintro hfrs j ⟨fr, hfrmem, d, hd, hpath⟩
      rw [skipLoop, dif_neg hdep]
      have hfrs' : ∀ fr' ∈ (parent, rest) :: stack,
          Reaches wf failed fr'.1 ∧ ∀ d' ∈ fr'.2, DepEdge wf fr'.1 d' := by
        intro fr' hm
        rcases List.mem_cons.mp hm with h | h
        · subst h
          have hhead := hfrs (parent, dep :: rest) (List.mem_cons_self _ _)
          exact ⟨hhead.1, fun d' hd' => hhead.2 d' (List.mem_cons_of_mem _ hd')⟩
        · exact hfrs fr' (List.mem_cons_of_mem _ h)
      refine ih hfrs' j ?_
      rcases List.mem_cons.mp hfrmem with h | h
      · have hd' : d ∈ dep :: rest := by rw [h] at hd; exact hd
        rcases List.mem_cons.mp hd' with h' | h'
        · subst h'
          exact absurd hpath.start_mem hdep
        · exact ⟨(parent, rest), List.mem_cons_self _ _, d, h', hpath⟩
      · exact ⟨fr, List.mem_cons_of_mem _ h, d, hd, hpath⟩

/-- C2: when a job fails during DAG execution, every still-pending job
transitively reachable from it via `dependents` is marked SKIPPED with a
reason of the form `Dependency '<p>' failed` — `p` being the direct
dependency through which the cascade reached it (the failed job itself
for its direct dependents) — and removed from the pending set, while
every job with no dependency path from the failed job keeps its status,
message, and pending membership untouched.  The hypothesis is the
scheduler invariant relating the two reachability notions: at the moment
a job fails, every pending transitive dependent is reachable through a
chain of still-pending dependents (non-pending downstream jobs were
either already cascade-skipped together with their own pending
dependents, or could only have started after this failed job reached
COMPLETED/SKIPPED, which never happened). -/
theorem cascade_skip_spec (wf : Workflow) (failed : String) (st : SkipState)
    (hinv : ∀ j ∈ st.pending, TransDependent wf failed j →
      CascadeTarget wf st.pending failed j) :
    (∀ j ∈ st.pending, TransDependent wf failed j →
      (skipDependents wf failed st).statuses j = .skipped ∧
      j ∉ (skipDependents wf failed st).pending ∧
      ∃ p, Reaches wf failed p ∧ DepEdge wf p j ∧
        (skipDependents wf failed st).reasons j =
          some ("Skipped: Dependency '" ++ p ++ "' failed")) ∧
    (∀ j, ¬ Reaches wf failed j →
      (skipDependents wf failed st).statuses j = st.statuses j ∧
      (skipDependents wf failed st).reasons j = st.reasons j ∧
      (j ∈ (skipDependents wf failed st).pending ↔ j ∈ st.pending)) := by
  constructor
  · intro j hj htrans
    obtain ⟨d, hd, hpath⟩ := hinv j hj htrans
    exact skipLoop_marks wf failed [(failed, wf.dependents failed)] st
      (by
        rintro fr hm
        rcases List.mem_cons.mp hm with h | h
        · subst h
          exact ⟨Reaches.refl failed, fun d' hd' => hd'⟩
        · exact absurd h (List.not_mem_nil fr))
      j ⟨(failed, wf.dependents failed), List.mem_cons_self _ _, d, hd, hpath⟩
  · intro j hj
    exact skipLoop_sound wf failed [(failed, wf.dependents failed)] st
      (by
        rintro fr hm d hd
        rcases List.mem_cons.mp hm with h | h
        · subst h
          exact Reaches.head hd (Reaches.refl d)
        · exact absurd h (List.not_mem_nil fr))
      j hj

/-- Concrete workflow for the C2 witness: `a → b → c` by `needs`. -/
def cascadeWitnessWf : Workflow :=
  ⟨"w", [("a", { prompt := some "p" }),
         ("b", { prompt := some "p", needs := some ["a"] }),
         ("c", { prompt := some "p", needs := some ["b"] })]⟩

/-- Concrete scheduler state for the C2 witness: `a` just failed, `b`
and `c` still pending. -/
def cascadeWitnessState : SkipState :=
  { statuses := fun n => if n = "a" then .failed else .pending
    reasons := fun _ => none
    pending := {"b", "c"} }

/-- Concrete instantiation of `cascade_skip_spec`: after `a` fails, the
transitive dependent `c` ends skipped and out of `pending`. -/
theorem cascade_skip_spec_witness :
    (skipDependents cascadeWitnessWf "a" cascadeWitnessState).statuses "c" =
      .skipped ∧
    "c" ∉ (skipDependents cascadeWitnessWf "a" cascadeWitnessState).pending := by
  have hedge_ab : DepEdge cascadeWitnessWf "a" "b" :=
    mem_dependents.mpr ⟨{ prompt := some "p", needs := some ["a"] },
      by decide, by decide⟩
  have hedge_bc : DepEdge cascadeWitnessWf "b" "c" :=
    mem_dependents.mpr ⟨{ prompt := some "p", needs := some ["b"] },
      by decide, by decide⟩
  have hinv : ∀ j ∈ cascadeWitnessState.pending,
      TransDependent cascadeWitnessWf "a" j →
      CascadeTarget cascadeWitnessWf cascadeWitnessState.pending "a" j := by
    intro j hj _
    rcases Finset.mem_insert.mp hj with hb | hc
    · subst hb
      exact ⟨"b", hedge_ab, ReachesIn.refl "b" (by decide)⟩
    · rw [Finset.mem_singleton] at hc
      subst hc
      exact ⟨"b", hedge_ab,
        ReachesIn.head (by decide) hedge_bc (ReachesIn.refl "c" (by decide))⟩
  have h := (cascade_skip_spec cascadeWitnessWf "a" cascadeWitnessState hinv).1
    "c" (by decide) ⟨"b", hedge_ab, Reaches.head hedge_bc (Reaches.refl "c")⟩
  exact ⟨h.1, h.2.1⟩

/-- A job still pending after the cascade was pending before and is
untouched (the loop marks exactly the jobs it removes from `pending`). -/
theorem skipLoop_mem_pending_untouched (wf : Workflow) :
    ∀ (stack : List (String × List String)) (st : SkipState) (j : String),
      j ∈ (skipLoop wf stack st).pending →
      (skipLoop wf stack st).statuses j = st.statuses j ∧
      (skipLoop wf stack st).reasons j = st.reasons j ∧
      j ∈ st.pending := by
  intro stack st
  induction stack, st using skipLoop.induct wf with
  | case1 st =>
      intro j hj
      rw [skipLoop] at hj ⊢
      exact ⟨rfl, rfl, hj⟩
  | case2 fst stack st ih =>
      intro j hj
      rw [skipLoop] at hj ⊢
      exact ih j hj
  | case3 parent dep rest stack st hdep ih =>
      intro j hj
      rw [skipLoop, dif_pos hdep] at hj ⊢
      obtain ⟨h1, h2, h3⟩ := ih j hj
      have hjmem : j ∈ (markSkippedDep st dep parent).pending := h3
      have hne : j ≠ dep := by
        simp only [markSkippedDep, Finset.mem_erase] at hjmem
        exact hjmem.1
      have hmem : j ∈ st.pending := by
        simp only [markSkippedDep, Finset.mem_erase] at hjmem
        exact hjmem.2
      refine ⟨?_, ?_, hmem⟩
      · rw [h1]; simp only [markSkippedDep]; rw [if_neg hne]
      · rw [h2]; simp only [markSkippedDep]; rw [if_neg hne]
  | case4 parent dep rest stack st hdep ih =>
      intro j hj
      rw [skipLoop, dif_neg hdep] at hj ⊢
      exact ih j hj

/-! ## DAG scheduler as a transition system
(`WorkflowRunner._run_dag`, `execution/workflow_runner.py`)

The control loop plus the per-job tasks are modelled as a labelled
transition system.  A job name moves through: `pending` (not yet
started) → `waiting` (its task exists in `running_tasks` but has not yet
acquired the semaphore) → `running` (inside `async with semaphore`,
which is exactly when its JobResult status is RUNNING) → terminal.
The in-flight JobResult object is tracked in `results` (the map
`run.job_results` proper keeps the stale PENDING entry until
`update_job_result`, but no reader distinguishes the two: readiness
treats PENDING and RUNNING identically, and the cascade tests the
`pending` set).  `ctxStatuses`/`ctxOutputs` are the shared
`ExpressionContext` maps, as written by `context.set_status` /
`context.set_outputs`.  Starting ready jobs one at a time and folding a
task's completion bookkeeping (context writes, result recording,
cascade) into one `finish` transition over-approximates the source's
batching, whose interleavings are a subset of these traces: the context
writes and `run.update_job_result` run inside the task before it is
observed done, and `pending` and pending jobs' results are only touched
by the control loop. -/

structure SchedState where
  pending : Finset String
  waiting : Finset String
  running : Finset String
  results : String → JobResultM
  ctxStatuses : String → Option String
  ctxOutputs : String → Option (List (String × String))

/-- The slice of scheduler state `_skip_dependents` operates on. -/
def SchedState.toSkipState (s : SchedState) : SkipState :=
  ⟨fun n => (s.results n).status, fun n => (s.results n).error_message,
    s.pending⟩

/-- Run the failure cascade and write its result statuses/messages back. -/
def applyCascade (wf : Workflow) (failed : String) (s : SchedState) :
    SchedState :=
  let sk := skipDependents wf failed s.toSkipState
  { s with
    pending := sk.pending
    results := fun n =>
      { s.results n with status := sk.statuses n, error_message := sk.reasons n } }

/-- The run as created by `WorkflowRun.create`: every job PENDING, the
shared context empty, no tasks. -/
def initState (wf : Workflow) : SchedState :=
  { pending := (wf.jobs.map Prod.fst).toFinset
    waiting := ∅
    running := ∅
    results := fun _ => {}
    ctxStatuses := fun _ => none
    ctxOutputs := fun _ => none }

/-- The readiness test as the control loop performs it: every job of
the run has a result (`run.job_results`), so lookups always succeed. -/
def SchedState.ready (s : SchedState) (wf : Workflow) (j : String) : Bool :=
  jobIsReady wf (fun n => some (s.results n)) j

/-- Bookkeeping done inside `run_job` when the job runner returns a
result with terminal status `t` (COMPLETED, FAILED, or SKIPPED from a
false guard): the semaphore is released, the result is recorded
(`run.update_job_result`), and `context.set_status`/`context.set_outputs`
write the status string and the outputs into the shared
ExpressionContext — all before the control loop observes the task done. -/
def finishBase (j : String) (t : JobStatus) (outs : List (String × String))
    (err claude : Option String) (s : SchedState) : SchedState :=
  { s with
    running := s.running.erase j
    results := fun n => if n = j then
        { status := t
          outputs := outs
          error_message := err
          claude_output := claude } else s.results n
    ctxStatuses := fun n => if n = j then some t.value
      else s.ctxStatuses n
    ctxOutputs := fun n => if n = j then some outs
      else s.ctxOutputs n }

/-- The whole effect of a task completing with status `t`: the task-body
bookkeeping (`finishBase`), then the control loop's `_skip_dependents`
cascade when the status is FAILED. -/
def finishState (wf : Workflow) (j : String) (t : JobStatus)
    (outs : List (String × String)) (err claude : Option String)
    (s : SchedState) : SchedState :=
  if t = .failed then applyCascade wf j (finishBase j t outs err claude s)
  else finishBase j t outs err claude s

/-- The deadlock fallback of the control loop: every still-pending job is
marked SKIPPED with "Dependencies not satisfied" in the run's results;
the shared ExpressionContext is not touched. -/
def deadlockState (s : SchedState) : SchedState :=
  { s with
    pending := ∅
    results := fun n => if n ∈ s.pending then
        { s.results n with
          status := .skipped
          error_message := some "Skipped: Dependencies not satisfied" }
      else s.results n }

/-- One transition of the DAG execution.  `start` creates a ready
pending job's task; `acquire` is the task entering the semaphore (its
fresh JobResult is marked RUNNING, `statusCallback(name, RUNNING)`
fires) and is enabled only below the concurrency limit; `finish` is the
task completing with a terminal status — COMPLETED, FAILED, or SKIPPED
(a false guard) — writing outputs and status into the shared context
and the run before the loop observes it, then cascading when FAILED;
`deadlock` is the defensive branch skipping every pending job when
nothing is in flight and nothing is ready. -/
inductive SchedStep (wf : Workflow) (limit : Nat) :
    SchedState → SchedState → Prop
  | start (j : String) (s : SchedState)
      (hj : j ∈ s.pending) (hready : s.ready wf j = true) :
      SchedStep wf limit s
        { s with pending := s.pending.erase j, waiting := insert j s.waiting }
  | acquire (j : String) (s : SchedState)
      (hj : j ∈ s.waiting) (hcap : s.running.card < limit) :
      SchedStep wf limit s
        { s with
          waiting := s.waiting.erase j
          running := insert j s.running
          results := fun n => if n = j then
              { s.results n with status := .running } else s.results n }
  | finish (j : String) (s : SchedState) (t : JobStatus)
      (outs : List (String × String)) (err claude : Option String)
      (hj : j ∈ s.running)
      (ht : t = .completed ∨ t = .failed ∨ t = .skipped) :
      SchedStep wf limit s (finishState wf j t outs err claude s)
  | deadlock (s : SchedState)
      (hrun : s.running = ∅) (hwait : s.waiting = ∅)
      (hnoready : ∀ j ∈ s.pending, s.ready wf j = false) :
      SchedStep wf limit s (deadlockState s)

/-- States reachable by the DAG execution from the initial run state. -/
inductive Reachable (wf : Workflow) (limit : Nat) : SchedState → Prop
  | init : Reachable wf limit (initState wf)
  | step {s s' : SchedState} : Reachable wf limit s →
      SchedStep wf limit s s' → Reachable wf limit s'

/-- The inductive invariant of the DAG execution: the concurrency cap,
RUNNING exactly while inside the semaphore, context writes present for
every job that finished COMPLETED or FAILED, and the bookkeeping
relations between `pending`, `waiting` and result statuses. -/
def SchedInv (limit : Nat) (s : SchedState) : Prop :=
  s.running.card ≤ limit ∧
  (∀ j, (s.results j).status = .running ↔ j ∈ s.running) ∧
  (∀ j, (s.results j).status = .completed ∨ (s.results j).status = .failed →
    s.ctxStatuses j = some ((s.results j).status.value) ∧
    s.ctxOutputs j = some ((s.results j).outputs)) ∧
  (∀ j ∈ s.pending, (s.results j).status = .pending) ∧
  (∀ j ∈ s.waiting, (s.results j).status = .pending ∧ j ∉ s.pending)

/-- A job removed from `pending` by the cascade was marked skipped with
a dependency-failure message. -/
theorem skipLoop_removed_skipped (wf : Workflow) :
    ∀ (stack : List (String × List String)) (st : SkipState) (j : String),
      j ∈ st.pending → j ∉ (skipLoop wf stack st).pending →
      (skipLoop wf stack st).statuses j = .skipped := by
  intro stack st
  induction stack, st using skipLoop.induct wf with
  | case1 st =>
      intro j hj hj'
      rw [skipLoop] at hj'
      exact absurd hj hj'
  | case2 fst stack st ih =>
      intro j hj hj'
      rw [skipLoop] at hj' ⊢
      exact ih j hj hj'
  | case3 parent dep rest stack st hdep ih =>
      intro j hj hj'
      rw [skipLoop, dif_pos hdep] at hj' ⊢
      by_cases hje : j = dep
      · have hjout : j ∉ (markSkippedDep st dep parent).pending := by
          simp [markSkippedDep, hje]
        obtain ⟨h1, -, -⟩ := skipLoop_stable wf
          ((dep, wf.dependents dep) :: (parent, rest) :: stack)
          (markSkippedDep st dep parent) j hjout
        rw [h1]
        simp only [markSkippedDep]
        rw [if_pos hje]
      · refine ih j ?_ hj'
        simp only [markSkippedDep, Finset.mem_erase]
        exact ⟨hje, hj⟩
  | case4 parent dep rest stack st hdep ih =>
      intro j hj hj'
      rw [skipLoop, dif_neg hdep] at hj' ⊢
      exact ih j hj hj'

/-- The failure cascade preserves the scheduler invariant: it marks only
pending jobs (whose status becomes SKIPPED), leaves the context, the
`running`/`waiting` sets, and all non-pending results untouched. -/
theorem applyCascade_inv {limit : Nat} {wf : Workflow} {failed : String}
    {s : SchedState} (hinv : SchedInv limit s) :
    SchedInv limit (applyCascade wf failed s) := by
  obtain ⟨hIcard, hIrun, hIctx, hIpend, hIwait⟩ := hinv
  have hstable : ∀ n, n ∉ s.pending →
      (skipDependents wf failed s.toSkipState).statuses n = (s.results n).status ∧
      (skipDependents wf failed s.toSkipState).reasons n =
        (s.results n).error_message ∧
      n ∉ (skipDependents wf failed s.toSkipState).pending :=
    fun n hn => skipLoop_stable wf _ s.toSkipState n hn
  have huntouched : ∀ n, n ∈ (skipDependents wf failed s.toSkipState).pending →
      (skipDependents wf failed s.toSkipState).statuses n = (s.results n).status ∧
      (skipDependents wf failed s.toSkipState).reasons n =
        (s.results n).error_message ∧
      n ∈ s.pending :=
    fun n hn => skipLoop_mem_pending_untouched wf _ s.toSkipState n hn
  have hremoved : ∀ n, n ∈ s.pending →
      n ∉ (skipDependents wf failed s.toSkipState).pending →
      (skipDependents wf failed s.toSkipState).statuses n = .skipped :=
    fun n hn hn2 => skipLoop_removed_skipped wf _ s.toSkipState n hn hn2
  -- every job's post-cascade status is its old status or SKIPPED
  have hcases : ∀ n,
      (skipDependents wf failed s.toSkipState).statuses n =
        (s.results n).status ∨
      (skipDependents wf failed s.toSkipState).statuses n = .skipped := by
    intro n
    by_cases hn : n ∈ s.pending
    · by_cases hn2 : n ∈ (skipDependents wf failed s.toSkipState).pending
      · exact Or.inl (huntouched n hn2).1
      · exact Or.inr (hremoved n hn hn2)
    · exact Or.inl (hstable n hn).1
  refine ⟨hIcard, ?_, ?_, ?_, ?_⟩
  · intro n
    show (skipDependents wf failed s.toSkipState).statuses n = .running ↔
      n ∈ s.running
    by_cases hn : n ∈ s.pending
    · have hnr : n ∉ s.running := fun hmem => by
        have hr := (hIrun n).mpr hmem
        rw [hIpend n hn] at hr
        cases hr
      rcases hcases n with h | h
      · rw [h, hIpend n hn]
        simp [hnr]
      · rw [h]
        simp [hnr]
    · rw [(hstable n hn).1]
      exact hIrun n
  · intro n hn
    have hn' : (skipDependents wf failed s.toSkipState).statuses n =
        .completed ∨
        (skipDependents wf failed s.toSkipState).statuses n = .failed := hn
    have hnp : n ∉ s.pending := by
      intro hmem
      by_cases hn2 : n ∈ (skipDependents wf failed s.toSkipState).pending
      · have hu := (huntouched n hn2).1
        rw [hu, hIpend n hmem] at hn'
        rcases hn' with h | h <;> cases h
      · have hr := hremoved n hmem hn2
        rw [hr] at hn'
        rcases hn' with h | h <;> cases h
    obtain ⟨hst, hre, -⟩ := hstable n hnp
    have hn2 : (s.results n).status = .completed ∨
        (s.results n).status = .failed := by
      rw [hst] at hn'
      exact hn'
    obtain ⟨hc1, hc2⟩ := hIctx n hn2
    show s.ctxStatuses n =
        some (((skipDependents wf failed s.toSkipState).statuses n).value) ∧
      s.ctxOutputs n = some ((s.results n).outputs)
    rw [hst]
    exact ⟨hc1, hc2⟩
  · intro p hp
    have hp' : p ∈ (skipDependents wf failed s.toSkipState).pending := hp
    obtain ⟨hst, -, hmem⟩ := huntouched p hp'
    show (skipDependents wf failed s.toSkipState).statuses p = .pending
    rw [hst]
    exact hIpend p hmem
  · intro w hw
    obtain ⟨hwst, hwnp⟩ := hIwait w hw
    obtain ⟨hst, -, hnp2⟩ := hstable w hwnp
    refine ⟨?_, hnp2⟩
    show (skipDependents wf failed s.toSkipState).statuses w = .pending
    rw [hst]
    exact hwst

theorem schedInv_init (wf : Workflow) (limit : Nat) :
    SchedInv limit (initState wf) := by
  refine ⟨by simp [initState], ?_, ?_, ?_, ?_⟩
  · intro j
    constructor
    · intro h; cases h
    · intro h
      exact absurd h (by simp [initState])
  · intro j hj
    rcases hj with h | h <;> cases h
  · intro j _
    rfl
  · intro j hj
    exact absurd hj (by simp [initState])

theorem schedInv_step {wf : Workflow} {limit : Nat} {s s' : SchedState}
    (hinv : SchedInv limit s) (hstep : SchedStep wf limit s s') :
    SchedInv limit s' := by
  obtain ⟨hIcard, hIrun, hIctx, hIpend, hIwait⟩ := hinv
  cases hstep with
  | start j s hj hready =>
      refine ⟨hIcard, hIrun, hIctx, ?_, ?_⟩
      · intro p hp
        exact hIpend p (Finset.mem_of_mem_erase hp)
      · intro w hw
        rcases Finset.mem_insert.mp hw with h | h
        · subst h
          exact ⟨hIpend w hj, Finset.not_mem_erase w _⟩
        · obtain ⟨h1, h2⟩ := hIwait w h
          exact ⟨h1, fun hmem => h2 (Finset.mem_of_mem_erase hmem)⟩
  | acquire j s hj hcap =>
      have hjnr : j ∉ s.running := by
        intro hmem
        have hr := (hIrun j).mpr hmem
        have hp := (hIwait j hj).1
        rw [hp] at hr
        cases hr
      refine ⟨?_, ?_, ?_, ?_, ?_⟩
      · show (insert j s.running).card ≤ limit
        rw [Finset.card_insert_of_not_mem hjnr]
        omega
      · intro n
        by_cases hn : n = j
        · subst hn
          show ((if n = n then { s.results n with status := .running }
              else s.results n) : JobResultM).status = .running ↔
            n ∈ insert n s.running
          rw [if_pos rfl]
          simp
        · show ((if n = j then { s.results n with status := .running }
              else s.results n) : JobResultM).status = .running ↔
            n ∈ insert j s.running
          rw [if_neg hn]
          rw [hIrun n]
          simp [Finset.mem_insert, hn]
      · intro n hn
        by_cases hnj : n = j
        · subst hnj
          have : ((if n = n then { s.results n with status := .running }
              else s.results n) : JobResultM).status = .running := by
            rw [if_pos rfl]
          rw [this] at hn
          rcases hn with h | h <;> cases h
        · dsimp only at hn ⊢
          rw [if_neg hnj] at hn ⊢
          exact hIctx n hn
      · intro p hp
        have hpj : p ≠ j := by
          intro h
          subst h
          exact (hIwait p hj).2 hp
        show ((if p = j then { s.results p with status := .running }
            else s.results p) : JobResultM).status = .pending
        rw [if_neg hpj]
        exact hIpend p hp
      · intro w hw
        have hwj : w ≠ j := (Finset.mem_erase.mp hw).1
        have hw' := Finset.mem_of_mem_erase hw
        obtain ⟨h1, h2⟩ := hIwait w hw'
        refine ⟨?_, h2⟩
        show ((if w = j then { s.results w with status := .running }
            else s.results w) : JobResultM).status = .pending
        rw [if_neg hwj]
        exact h1
  | finish j s t outs err claude hj ht =>
      have hjnp : j ∉ s.pending := by
        intro hmem
        have hp := hIpend j hmem
        have hr := (hIrun j).mpr hj
        rw [hp] at hr
        cases hr
      have hjnw : j ∉ s.waiting := by
        intro hmem
        have hp := (hIwait j hmem).1
        have hr := (hIrun j).mpr hj
        rw [hp] at hr
        cases hr
      have htnr : t ≠ .running := by
        rcases ht with h | h | h <;> subst h <;> intro h <;> cases h
      -- the invariant holds for the pre-cascade state s1
      have hs1 : SchedInv limit
          { s with
            running := s.running.erase j
            results := fun n => if n = j then
                { status := t
                  outputs := outs
                  error_message := err
                  claude_output := claude } else s.results n
            ctxStatuses := fun n => if n = j then some t.value
              else s.ctxStatuses n
            ctxOutputs := fun n => if n = j then some outs
              else s.ctxOutputs n } := by
        refine ⟨?_, ?_, ?_, ?_, ?_⟩
        · show (s.running.erase j).card ≤ limit
          exact le_trans (Finset.card_le_card (Finset.erase_subset _ _)) hIcard
        · intro n
          by_cases hn : n = j
          · subst hn
            show ((if n = n then _ else s.results n) : JobResultM).status =
              .running ↔ n ∈ s.running.erase n
            rw [if_pos rfl]
            simp [htnr]
          · show ((if n = j then _ else s.results n) : JobResultM).status =
              .running ↔ n ∈ s.running.erase j
            rw [if_neg hn, hIrun n]
            simp [Finset.mem_erase, hn]
        · intro n hn
          by_cases hnj : n = j
          · subst hnj
            simp
          · dsimp only at hn ⊢
            simp only [if_neg hnj] at hn ⊢
            exact hIctx n hn
        · intro p hp
          have hpj : p ≠ j := fun h => hjnp (h ▸ hp)
          show ((if p = j then _ else s.results p) : JobResultM).status = .pending
          rw [if_neg hpj]
          exact hIpend p hp
        · intro w hw
          have hwj : w ≠ j := fun h => hjnw (h ▸ hw)
          obtain ⟨h1, h2⟩ := hIwait w hw
          refine ⟨?_, h2⟩
          show ((if w = j then _ else s.results w) : JobResultM).status = .pending
          rw [if_neg hwj]
          exact h1
      unfold finishState
      by_cases htf : t = .failed
      · rw [if_pos htf]
        subst htf
        exact applyCascade_inv hs1
      · rw [if_neg htf]
        exact hs1
  | deadlock s hrun0 hwait0 hnoready =>
      unfold deadlockState
      refine ⟨hIcard, ?_, ?_, ?_, ?_⟩
      · intro n
        by_cases hn : n ∈ s.pending
        · show ((if n ∈ s.pending then
              { s.results n with
                status := .skipped
                error_message := some "Skipped: Dependencies not satisfied" }
              else s.results n) : JobResultM).status = .running ↔ n ∈ s.running
          rw [if_pos hn]
          rw [hrun0]
          simp
        · show ((if n ∈ s.pending then _ else s.results n) : JobResultM).status
              = .running ↔ n ∈ s.running
          rw [if_neg hn]
          exact hIrun n
      · intro n hn
        by_cases hnp : n ∈ s.pending
        · dsimp only at hn
          simp only [if_pos hnp] at hn
          rcases hn with h | h <;> cases h
        · dsimp only at hn ⊢
          simp only [if_neg hnp] at hn ⊢
          exact hIctx n hn
      · intro p hp
        exact absurd hp (Finset.not_mem_empty p)
      · intro w hw
        rw [hwait0] at hw
        exact absurd hw (Finset.not_mem_empty w)

theorem reachable_inv {wf : Workflow} {limit : Nat} {s : SchedState}
    (h : Reachable wf limit s) : SchedInv limit s := by
  induction h with
  | init => exact schedInv_init wf limit
  | step _ hstep ih => exact schedInv_step ih hstep

/-- C9: during any DAG execution with limit `max_concurrent_jobs`, at no
point do more than that many jobs have status RUNNING simultaneously —
in every reachable state of every workflow, under every interleaving of
starts, semaphore acquisitions and completions, any duplicate-free set
of job names contains at most `limit` RUNNING jobs. -/
theorem running_le_limit (wf : Workflow) (limit : Nat) (s : SchedState)
    (h : Reachable wf limit s) (names : List String) (hnd : names.Nodup) :
    (names.filter (fun j => (s.results j).status = .running)).length ≤ limit := by
  obtain ⟨hIcard, hIrun, -, -, -⟩ := reachable_inv h
  have hsub : (names.filter
      (fun j => (s.results j).status = .running)).toFinset ⊆ s.running := by
    intro x hx
    rw [List.mem_toFinset, List.mem_filter] at hx
    exact (hIrun x).mp (by simpa using hx.2)
  calc (names.filter (fun j => (s.results j).status = .running)).length
      = (names.filter (fun j => (s.results j).status = .running)).toFinset.card := by
        rw [List.toFinset_card_of_nodup (hnd.filter _)]
    _ ≤ s.running.card := Finset.card_le_card hsub
    _ ≤ limit := hIcard

/-- Workflow used by the scheduler witnesses: two independent jobs. -/
def schedWitnessWf : Workflow :=
  ⟨"w", [("a", { prompt := some "p" }), ("b", { prompt := some "p" })]⟩

/-- Concrete instantiation of `running_le_limit` at the initial state. -/
theorem running_le_limit_witness :
    ((["a", "b"]).filter
      (fun j => ((initState schedWitnessWf).results j).status = .running)).length
      ≤ 2 :=
  running_le_limit schedWitnessWf 2 (initState schedWitnessWf)
    Reachable.init ["a", "b"] (by decide)

/-- The failure cascade does not change the result status of a job that
is not pending (it only marks jobs it removes from `pending`). -/
theorem applyCascade_status_stable (wf : Workflow) (failed : String)
    (s : SchedState) (j : String) (hj : j ∉ s.pending) :
    ((applyCascade wf failed s).results j).status = (s.results j).status := by
  have h := skipLoop_stable wf [(failed, wf.dependents failed)]
    s.toSkipState j hj
  show (skipDependents wf failed s.toSkipState).statuses j =
    (s.results j).status
  exact h.1

/-- C8 amended, four parts.  (1) In every reachable state of the DAG
execution — hence in particular whenever the control loop computes
readiness — every job whose result reached COMPLETED or FAILED has its
terminal status string and its outputs present in the shared
ExpressionContext under its name.  (2) The task-completion transition
for ANY terminal status the job runner can return — COMPLETED, FAILED,
or guard-SKIPPED — writes the job's status string and its outputs into
the shared context (and records the terminal result) before the control
loop resumes, so the next readiness computation observes them.  (3) The
deadlock fallback marks every still-pending job SKIPPED in the run's
results but leaves the shared context completely untouched.  (4) The
failure cascade never writes the shared context, so cascade-skipped
jobs are recorded in the run but invisible to later guards and
interpolations (see the counterexample). -/
theorem context_reflects_finished_jobs :
    (∀ (wf : Workflow) (limit : Nat) (s : SchedState),
      Reachable wf limit s →
      ∀ j : String, (s.results j).status = .completed ∨
        (s.results j).status = .failed →
      s.ctxStatuses j = some ((s.results j).status.value) ∧
      s.ctxOutputs j = some ((s.results j).outputs)) ∧
    (∀ (wf : Workflow) (j : String) (t : JobStatus)
      (outs : List (String × String)) (err claude : Option String)
      (s : SchedState), j ∉ s.pending →
      (finishState wf j t outs err claude s).ctxStatuses j = some t.value ∧
      (finishState wf j t outs err claude s).ctxOutputs j = some outs ∧
      ((finishState wf j t outs err claude s).results j).status = t) ∧
    (∀ s : SchedState,
      (deadlockState s).ctxStatuses = s.ctxStatuses ∧
      (deadlockState s).ctxOutputs = s.ctxOutputs ∧
      ∀ j ∈ s.pending, ((deadlockState s).results j).status = .skipped) ∧
    (∀ (wf : Workflow) (failed : String) (s : SchedState),
      (applyCascade wf failed s).ctxStatuses = s.ctxStatuses ∧
      (applyCascade wf failed s).ctxOutputs = s.ctxOutputs) := by
  refine ⟨?_, ?_, ?_, ?_⟩
  · intro wf limit s h j hterm
    exact (reachable_inv h).2.2.1 j hterm
  · intro wf j t outs err claude s hjnp
    unfold finishState
    by_cases htf : t = .failed
    · rw [if_pos htf]
      subst htf
      refine ⟨?_, ?_, ?_⟩
      · show (finishBase j .failed outs err claude s).ctxStatuses j =
          some JobStatus.failed.value
        simp [finishBase]
      · show (finishBase j .failed outs err claude s).ctxOutputs j = some outs
        simp [finishBase]
      · rw [applyCascade_status_stable wf j
          (finishBase j .failed outs err claude s) j hjnp]
        simp [finishBase]
    · rw [if_neg htf]
      refine ⟨?_, ?_, ?_⟩ <;> simp [finishBase]
  · intro s
    refine ⟨rfl, rfl, ?_⟩
    intro j hj
    simp [deadlockState, hj]
  · intro wf failed s
    exact ⟨rfl, rfl⟩

/-- State after starting job `a` of `schedWitnessWf`. -/
def c8s1 : SchedState :=
  { initState schedWitnessWf with
    pending := (initState schedWitnessWf).pending.erase "a"
    waiting := insert "a" (initState schedWitnessWf).waiting }

/-- State after `a`'s task acquires the semaphore. -/
def c8s2 : SchedState :=
  { c8s1 with
    waiting := c8s1.waiting.erase "a"
    running := insert "a" c8s1.running
    results := fun n => if n = "a" then
        { c8s1.results n with status := .running } else c8s1.results n }

/-- State after `a` finishes COMPLETED with one output. -/
def c8s3 : SchedState :=
  { c8s2 with
    running := c8s2.running.erase "a"
    results := fun n => if n = "a" then
        { status := .completed
          outputs := [("x", "1")]
          error_message := none
          claude_output := none } else c8s2.results n
    ctxStatuses := fun n => if n = "a" then some JobStatus.completed.value
      else c8s2.ctxStatuses n
    ctxOutputs := fun n => if n = "a" then some [("x", "1")]
      else c8s2.ctxOutputs n }

/-- Concrete instantiation of `context_reflects_finished_jobs`: after a
three-step trace completing job `a` the context holds its status and
outputs; a guard-skip completion of `a` writes "skipped" and the
outputs into the context; the deadlock fallback and the cascade leave
the context unchanged. -/
theorem context_reflects_finished_jobs_witness :
    c8s3.ctxStatuses "a" = some "completed" ∧
    c8s3.ctxOutputs "a" = some [("x", "1")] ∧
    (finishState schedWitnessWf "a" .skipped [("y", "2")] none none
      c8s3).ctxStatuses "a" = some "skipped" ∧
    (finishState schedWitnessWf "a" .skipped [("y", "2")] none none
      c8s3).ctxOutputs "a" = some [("y", "2")] ∧
    (deadlockState c8s3).ctxStatuses = c8s3.ctxStatuses ∧
    (applyCascade schedWitnessWf "a" c8s3).ctxStatuses = c8s3.ctxStatuses := by
  have hreach : Reachable schedWitnessWf 2 c8s3 :=
    Reachable.step (Reachable.step (Reachable.step Reachable.init
      (SchedStep.start "a" (initState schedWitnessWf) (by decide) (by decide)))
      (SchedStep.acquire "a" c8s1 (by decide) (by decide)))
      (SchedStep.finish "a" c8s2 .completed [("x", "1")] none none
        (by decide) (Or.inl rfl))
  obtain ⟨h1, h2, h3, h4⟩ := context_reflects_finished_jobs
  have ha := h1 schedWitnessWf 2 c8s3 hreach "a" (Or.inl (by decide))
  have hb := h2 schedWitnessWf "a" .skipped [("y", "2")] none none c8s3
    (by decide)
  exact ⟨ha.1, ha.2, hb.1, hb.2.1, (h3 c8s3).1,
    (h4 schedWitnessWf "a" c8s3).1⟩

/-- Workflow for the C8 counterexample: `b` needs `a`. -/
def c8FailWf : Workflow :=
  ⟨"w", [("a", { prompt := some "p" }),
         ("b", { prompt := some "p", needs := some ["a"] })]⟩

/-- State after starting job `a` of `c8FailWf`. -/
def c8f1 : SchedState :=
  { initState c8FailWf with
    pending := (initState c8FailWf).pending.erase "a"
    waiting := insert "a" (initState c8FailWf).waiting }

/-- State after `a`'s task acquires the semaphore. -/
def c8f2 : SchedState :=
  { c8f1 with
    waiting := c8f1.waiting.erase "a"
    running := insert "a" c8f1.running
    results := fun n => if n = "a" then
        { c8f1.results n with status := .running } else c8f1.results n }

/-- State after `a` finishes FAILED, before the cascade. -/
def c8f3pre : SchedState :=
  { c8f2 with
    running := c8f2.running.erase "a"
    results := fun n => if n = "a" then
        { status := .failed
          outputs := []
          error_message := some "boom"
          claude_output := none } else c8f2.results n
    ctxStatuses := fun n => if n = "a" then some JobStatus.failed.value
      else c8f2.ctxStatuses n
    ctxOutputs := fun n => if n = "a" then some ([] : List (String × String))
      else c8f2.ctxOutputs n }

/-- Final state of the counterexample trace: the cascade has skipped `b`. -/
def c8f3 : SchedState := applyCascade c8FailWf "a" c8f3pre

/-- C8 counterexample: in a real execution trace job `a` fails and the
cascade marks `b` SKIPPED — a terminal state reached during DAG
execution — yet `b`'s status and outputs are never written into the
shared ExpressionContext (the cascade does not touch the context), so
later readiness computations and guards do not observe them; the claim
requires every terminal job, including cascade-skipped ones, to be
written. -/
theorem cascade_skip_not_in_context :
    Reachable c8FailWf 1 c8f3 ∧
    (c8f3.results "b").status = .skipped ∧
    c8f3.ctxStatuses "b" = none ∧
    c8f3.ctxOutputs "b" = none := by
  have hedge : "b" ∈ c8FailWf.dependents "a" :=
    mem_dependents.mpr ⟨{ prompt := some "p", needs := some ["a"] },
      by decide, by decide⟩
  refine ⟨?_, ?_, rfl, rfl⟩
  · exact Reachable.step (Reachable.step (Reachable.step Reachable.init
      (SchedStep.start "a" (initState c8FailWf) (by decide) (by decide)))
      (SchedStep.acquire "a" c8f1 (by decide) (by decide)))
      (SchedStep.finish "a" c8f2 .failed [] (some "boom") none
        (by decide) (Or.inr (Or.inl rfl)))
  · have h := skipLoop_marks c8FailWf "a" [("a", c8FailWf.dependents "a")]
      c8f3pre.toSkipState
      (by
        rintro fr hm
        rcases List.mem_cons.mp hm with h | h
        · subst h
          exact ⟨Reaches.refl "a", fun d' hd' => hd'⟩
        · exact absurd h (List.not_mem_nil fr))
      "b" ⟨("a", c8FailWf.dependents "a"), List.mem_cons_self _ _, "b", hedge,
        ReachesIn.refl "b" (by decide)⟩
    exact h.1

end AgentManager
